import Mathlib

/-!
# m12r/email: message model, SMTP adapter and mock transport

A shallow embedding of the Go packages `email`, `email/internal/bbpool`,
`email/smtp` and `email/mock`.

Go values of type `[]byte` are slice headers pointing into backing arrays; the
backing arrays live in an explicit `Heap`, so that aliasing between a stored
body and a pooled `bytes.Buffer` can be expressed.  Functions that mutate their
receiver return the new receiver; functions that use the buffer pool or
allocate thread a `World` (heap and pool).  A Go `error` is `Option Error`,
`none` being the nil error.

What the packages take from outside is a parameter or is modelled by its
documented contract: `bytes.Buffer`, `io.Reader`, `sync.Pool` (which cached
item `Get` hands out is a choice function of the world), `path.Base`,
`path.Ext`, `mime.TypeByExtension`, `io/fs`, `net.SplitHostPort`,
`x509.SystemCertPool`, and the three delivery operations of the delegate
email library.  The template variants of the body setters are left out.
-/

namespace Email

/-! ## Go runtime values -/

/-- A Go error value; the nil error is `none : Option Error`. -/
structure Error where
  msg : String
deriving DecidableEq, Repr

abbrev Byte := UInt8

/-- A non-nil Go slice header of type `[]byte`: the backing array, the offset of
the first element in it, and the length. -/
structure Slice where
  addr : Nat
  off : Nat
  len : Nat
deriving DecidableEq, Repr

/-- A Go value of type `[]byte`: nil (`none`) or a slice header. -/
abbrev ByteSlice := Option Slice

/-- The backing arrays of all byte slices, by address; `next` is the first
address that has not been allocated. -/
structure Heap where
  arrays : Nat → List Byte
  next : Nat

/-- The largest value of a Go `int`, which is 64 bits wide on 64-bit platforms. -/
def maxInt : Int := 9223372036854775807

/-- The smallest value of a Go `int`. -/
def minInt : Int := -9223372036854775808

/-- The value Go's `int` arithmetic gives for the exact result `x`: `x` reduced
modulo 2^64 into the range from `minInt` to `maxInt` (two's-complement wrap-around). -/
def wrapInt (x : Int) : Int :=
  (x + 9223372036854775808) % 18446744073709551616 - 9223372036854775808

/-- The Go builtin `len` on a `[]byte`. -/
def goLen (s : ByteSlice) : Nat :=
  match s with
  | none => 0
  | some s => s.len

/-- The elements of a byte slice, read from its backing array. -/
def Heap.read (h : Heap) (s : ByteSlice) : List Byte :=
  match s with
  | none => []
  | some s => ((h.arrays s.addr).drop s.off).take s.len

/-- Overwrite `arr` from position `pos` on with `data` (the array is extended
when `data` runs over its end). -/
def writeAt (arr : List Byte) (pos : Nat) (data : List Byte) : List Byte :=
  arr.take pos ++ data ++ arr.drop (pos + data.length)

/-- Allocate a new backing array holding `data`. -/
def Heap.alloc (h : Heap) (data : List Byte) : Slice × Heap :=
  ({ addr := h.next, off := 0, len := data.length },
   { arrays := Function.update h.arrays h.next data, next := h.next + 1 })

/-- The Go builtin `make([]byte, n)`: a new zeroed array of length `n`. -/
def Heap.make (h : Heap) (n : Nat) : ByteSlice × Heap :=
  let (s, h1) := h.alloc (List.replicate n 0)
  (some s, h1)

/-- The Go builtin `copy(dst, src)`: the first `min (len dst) (len src)` elements
of `src` are written over the start of `dst`. -/
def Heap.copy (h : Heap) (dst src : ByteSlice) : Heap :=
  match dst with
  | none => h
  | some d =>
    let data := (h.read src).take d.len
    { h with arrays := Function.update h.arrays d.addr (writeAt (h.arrays d.addr) d.off data) }

/-- The bytes of a Go string. -/
def stringBytes (s : String) : List Byte := s.toUTF8.data.toList

/-- The Go conversion `[]byte(s)`: a new array holding the bytes of `s`. -/
def Heap.ofString (h : Heap) (s : String) : ByteSlice × Heap :=
  let (p, h1) := h.alloc (stringBytes s)
  (some p, h1)

/-! ## bytes.Buffer and io.Reader (standard library, modelled by their contract) -/

/-- A `bytes.Buffer`: the contents are `buf[off:]`. -/
structure Buffer where
  buf : Slice
  off : Nat
deriving DecidableEq, Repr

/-- `Buffer.Len`: the number of unread bytes. -/
def Buffer.Len (b : Buffer) : Nat := b.buf.len - b.off

/-- `Buffer.Bytes`: the slice `b.buf[b.off:]`, sharing the backing array of the buffer. -/
def Buffer.Bytes (b : Buffer) : ByteSlice :=
  some { addr := b.buf.addr, off := b.buf.off + b.off, len := b.buf.len - b.off }

/-- `Buffer.Reset`: `b.buf = b.buf[:0]; b.off = 0`; the backing array is kept. -/
def Buffer.Reset (b : Buffer) : Buffer :=
  { buf := { b.buf with len := 0 }, off := 0 }

/-- `Buffer.Write`: append `p` to the contents.  The bytes go to the backing array
of the buffer, which grows in place; where Go moves the contents to a larger
array instead, slices into the old array are aliased less, not more. -/
def Buffer.Write (b : Buffer) (p : List Byte) (h : Heap) : Buffer × Heap :=
  let arr := writeAt (h.arrays b.buf.addr) (b.buf.off + b.buf.len) p
  ({ b with buf := { b.buf with len := b.buf.len + p.length } },
   { h with arrays := Function.update h.arrays b.buf.addr arr })

/-- A reader that is not a `*bytes.Buffer`: the chunks its successive `Read`
calls deliver, then `io.EOF` (`err = none`) or a read error. -/
structure ByteStream where
  chunks : List (List Byte)
  err : Option Error
deriving DecidableEq, Repr

/-- `Buffer.ReadFrom`: append what the stream delivers until `io.EOF` or an
error; an error other than `io.EOF` is returned. -/
def Buffer.ReadFrom (b : Buffer) (r : ByteStream) (h : Heap) : Buffer × Option Error × Heap :=
  let (b1, h1) := r.chunks.foldl (fun (st : Buffer × Heap) c => st.1.Write c st.2) (b, h)
  (b1, r.err, h1)

/-- An `io.Reader` as seen by the type assertion `r.(*bytes.Buffer)`. -/
inductive Reader where
  | buffer (b : Buffer)
  | stream (s : ByteStream)
deriving DecidableEq, Repr

/-- The heap together with the package-level state of `bbpool`: whether
`once.Do` has run, the buffers cached in the `sync.Pool`, and `pick`, the choice
`sync.Pool.Get` makes among the cached items (`none`: it hands out none of them). -/
structure World where
  heap : Heap
  once : Bool
  pool : List Buffer
  pick : List Buffer → Option Nat

/-- The world with another heap. -/
def World.withHeap (w : World) (h : Heap) : World := { w with heap := h }

/-! ## internal/bbpool -/

namespace bbpool

/-- `initPool`: a new, empty `sync.Pool`. -/
def initPool (w : World) : World := { w with pool := [] }

/-- `once.Do(initPool)`. -/
def onceDo (w : World) : World :=
  if w.once then w else { initPool w with once := true }

/-- `sync.Pool.Get`: an arbitrary cached item, removed from the pool; nothing when
the pool is empty or behaves as if it were. -/
def poolGet (w : World) : Option Buffer × World :=
  match w.pick w.pool with
  | none => (none, w)
  | some i =>
    match w.pool[i]? with
    | none => (none, w)
    | some b => (some b, { w with pool := w.pool.eraseIdx i })

/-- `bbpool.Get`: a buffer cached in the pool, or `&bytes.Buffer{}` from `New` when
the pool hands out nothing (the new buffer gets its own, empty backing array).
The type assertion cannot fail because only buffers are put. -/
def Get (w : World) : Buffer × World :=
  match poolGet (onceDo w) with
  | (some b, w1) => (b, w1)
  | (none, w1) =>
    let (s, h1) := w1.heap.alloc []
    ({ buf := s, off := 0 }, { w1 with heap := h1 })

/-- `bbpool.Put`: reset the buffer and cache it. -/
def Put (buf : Buffer) (w : World) : World :=
  let w1 := onceDo w
  { w1 with pool := buf.Reset :: w1.pool }

end bbpool

/-! ## package email -/

structure Attachment where
  Name : String
  ContentType : String
  Body : ByteSlice
deriving DecidableEq, Repr

structure Html where
  Body : ByteSlice
  Inlines : List Attachment
deriving DecidableEq, Repr

structure Message where
  From : String
  To : List String
  Cc : List String
  Bcc : List String
  Subject : String
  Plain : ByteSlice
  Html : Option Html
  Attachments : List Attachment
deriving DecidableEq, Repr

/-- `type MessageOpt func(*Message) error`. -/
abbrev MessageOpt := Message → World → Option Error × Message × World

/-- `type HtmlOpt func(*Html) error`. -/
abbrev HtmlOpt := Html → World → Option Error × Html × World

/-- The loop `for _, opt := range opts { if err := opt(x); err != nil { return err } }`. -/
def rangeOpts {α : Type} :
    List (α → World → Option Error × α × World) → α → World → Option Error × α × World
  | [], x, w => (none, x, w)
  | opt :: rest, x, w =>
    match opt x w with
    | (some e, x1, w1) => (some e, x1, w1)
    | (none, x1, w1) => rangeOpts rest x1 w1

def NewMessage (from_ subject : String) (opts : List MessageOpt) (w : World) :
    (Option Message × Option Error) × World :=
  let m : Message :=
    { From := from_, To := [], Cc := [], Bcc := [], Subject := subject,
      Plain := none, Html := none, Attachments := [] }
  match rangeOpts opts m w with
  | (some e, _, w1) => ((none, some e), w1)
  | (none, m1, w1) => ((some m1, none), w1)

def Message.AddTo (m : Message) (addrs : List String) : Message :=
  addrs.foldl (fun m addr => { m with To := m.To ++ [addr] }) m

def Message.AddCc (m : Message) (addrs : List String) : Message :=
  addrs.foldl (fun m addr => { m with Cc := m.Cc ++ [addr] }) m

def Message.AddBcc (m : Message) (addrs : List String) : Message :=
  addrs.foldl (fun m addr => { m with Bcc := m.Bcc ++ [addr] }) m

def To (addrs : List String) : MessageOpt :=
  fun m w => (none, m.AddTo addrs, w)

def Cc (addrs : List String) : MessageOpt :=
  fun m w => (none, m.AddCc addrs, w)

def Bcc (addrs : List String) : MessageOpt :=
  fun m w => (none, m.AddBcc addrs, w)

def Message.SetPlain (m : Message) (r : Reader) (w : World) : Option Error × Message × World :=
  match r with
  | .buffer buf =>
    let (p, h1) := w.heap.make buf.Len
    let h2 := h1.copy p buf.Bytes
    (none, { m with Plain := p }, { w with heap := h2 })
  | .stream s =>
    let (buf, w1) := bbpool.Get w
    match buf.ReadFrom s w1.heap with
    | (buf1, some err, h1) => (some err, m, bbpool.Put buf1 { w1 with heap := h1 })
    | (buf1, none, h1) =>
      let (p, h2) := h1.make buf1.Len
      let h3 := h2.copy p buf1.Bytes
      (none, { m with Plain := p }, bbpool.Put buf1 { w1 with heap := h3 })

def Message.SetPlainFromString (m : Message) (msg : String) (w : World) :
    Option Error × Message × World :=
  let (p, h1) := w.heap.ofString msg
  (none, { m with Plain := p }, { w with heap := h1 })

/-- `newAttachment`; the Go result `(a, nil)` is `.ok a` and `(nil, err)` is `.error err`. -/
def newAttachment (name contentType : String) (r : Reader) (w : World) :
    Except Error Attachment × World :=
  match r with
  | .buffer buf =>
    let (p, h1) := w.heap.make buf.Len
    let h2 := h1.copy p buf.Bytes
    (.ok { Name := name, ContentType := contentType, Body := p }, { w with heap := h2 })
  | .stream s =>
    let (buf, w1) := bbpool.Get w
    match buf.ReadFrom s w1.heap with
    | (buf1, some err, h1) => (.error err, bbpool.Put buf1 { w1 with heap := h1 })
    | (buf1, none, h1) =>
      let (p, h2) := h1.make buf1.Len
      let h3 := h2.copy p buf1.Bytes
      (.ok { Name := name, ContentType := contentType, Body := p },
        bbpool.Put buf1 { w1 with heap := h3 })

def Html.Inline (h : Html) (name contentType : String) (r : Reader) (w : World) :
    Option Error × Html × World :=
  match newAttachment name contentType r w with
  | (.error err, w1) => (some err, h, w1)
  | (.ok a, w1) => (none, { h with Inlines := h.Inlines ++ [a] }, w1)

def Inline (name contentType : String) (r : Reader) : HtmlOpt :=
  fun h w => h.Inline name contentType r w

def Message.SetHtml (m : Message) (r : Reader) (opts : List HtmlOpt) (w : World) :
    Option Error × Message × World :=
  match r with
  | .buffer buf =>
    let (p, h1) := w.heap.make buf.Len
    let h2 := h1.copy p buf.Bytes
    match rangeOpts opts { Body := p, Inlines := [] } { w with heap := h2 } with
    | (some err, _, w2) => (some err, m, w2)
    | (none, h, w2) => (none, { m with Html := some h }, w2)
  | .stream s =>
    let (buf, w1) := bbpool.Get w
    match buf.ReadFrom s w1.heap with
    | (buf1, some err, h1) => (some err, m, bbpool.Put buf1 { w1 with heap := h1 })
    | (buf1, none, h1) =>
      let (p, h2) := h1.make buf1.Len
      let h3 := h2.copy p buf1.Bytes
      match rangeOpts opts { Body := p, Inlines := [] } { w1 with heap := h3 } with
      | (some err, _, w2) => (some err, m, bbpool.Put buf1 w2)
      | (none, h, w2) => (none, { m with Html := some h }, bbpool.Put buf1 w2)

def Message.SetHtmlFromString (m : Message) (msg : String) (opts : List HtmlOpt) (w : World) :
    Option Error × Message × World :=
  let (p, h1) := w.heap.ofString msg
  match rangeOpts opts { Body := p, Inlines := [] } { w with heap := h1 } with
  | (some err, _, w2) => (some err, m, w2)
  | (none, h, w2) => (none, { m with Html := some h }, w2)

def Message.Attach (m : Message) (name contentType : String) (r : Reader) (w : World) :
    Option Error × Message × World :=
  match newAttachment name contentType r w with
  | (.error err, w1) => (some err, m, w1)
  | (.ok a, w1) => (none, { m with Attachments := m.Attachments ++ [a] }, w1)

def Attach (name contentType : String) (r : Reader) : MessageOpt :=
  fun m w => m.Attach name contentType r w

/-! ### path.Base, path.Ext, io/fs (standard library) -/

namespace path

/-- `path.Base`: the last element of the path, trailing slashes removed; `"."` for
the empty path and `"/"` for a path of slashes only. -/
def Base (p : String) : String :=
  if p = "" then "."
  else
    let stripped := p.data.reverse.dropWhile (fun c => c == '/')
    let last := (stripped.takeWhile (fun c => c != '/')).reverse
    if last = [] then "/" else String.mk last

/-- The loop of `path.Ext`, from the last character backwards; `acc` holds the
characters already passed. -/
def extLoop : List Char → List Char → List Char
  | [], _ => []
  | c :: rest, acc =>
    if c = '/' then []
    else if c = '.' then '.' :: acc
    else extLoop rest (c :: acc)

/-- `path.Ext`: the suffix beginning at the final dot in the final
slash-separated element; empty if there is no dot. -/
def Ext (p : String) : String := String.mk (extLoop p.data.reverse [])

end path

/-- An open `fs.File`; it is never a `*bytes.Buffer`, which has no `Stat` or `Close`. -/
structure File where
  stream : ByteStream

/-- An `fs.FS`. -/
structure FS where
  Open : String → Except Error File

def contentTypeFromFileName (typeByExtension : String → String) (name : String) : String :=
  let ct := "application/octet-stream"
  let ext := path.Ext name
  if ext = "" then ct
  else
    let tmp := typeByExtension ext
    if tmp = "" then ct else tmp

/-- `Message.AttachFromFile`; `typeByExtension` is `mime.TypeByExtension`.  The
deferred `f.Close()` does not touch the modelled state. -/
def Message.AttachFromFile (typeByExtension : String → String) (m : Message) (fsys : FS)
    (name : String) (w : World) : Option Error × Message × World :=
  match fsys.Open name with
  | .error err => (some err, m, w)
  | .ok f =>
    let base := path.Base name
    let contentType := contentTypeFromFileName typeByExtension name
    m.Attach base contentType (.stream f.stream) w

def AttachFromFile (typeByExtension : String → String) (fsys : FS) (name : String) : MessageOpt :=
  fun m w => m.AttachFromFile typeByExtension fsys name w

/-! ## package smtp -/

namespace smtp

/-- A `smtp.Auth` of the standard library, as built by `smtp.PlainAuth` or `smtp.CRAMMD5Auth`. -/
inductive Auth where
  | plain (identity username password host : String)
  | cramMD5 (username secret : String)
deriving DecidableEq, Repr

/-- An `x509.CertPool`. -/
structure CertPool where
  certs : List String
deriving DecidableEq, Repr

/-- The fields of `tls.Config` that are set. -/
structure TLSConfig where
  RootCAs : CertPool
  ServerName : String
deriving DecidableEq, Repr

/-- A `textproto.MIMEHeader`. -/
abbrev MIMEHeader := List (String × List String)

/-- The `Attachment` of the delegate library (jordan-wright/email). -/
structure JweAttachment where
  Filename : String
  ContentType : String
  Header : MIMEHeader
  Content : ByteSlice
deriving DecidableEq, Repr

/-- The `Email` of the delegate library (jordan-wright/email). -/
structure JweEmail where
  From : String
  To : List String
  Cc : List String
  Bcc : List String
  Subject : String
  Text : ByteSlice
  HTML : ByteSlice
  Sender : String
  Headers : MIMEHeader
  Attachments : List JweAttachment
deriving DecidableEq, Repr

/-- The three delivery operations of the delegate library; `N` is the state of
the outside world they act on. -/
structure Delegate (N : Type) where
  Send : JweEmail → Heap → String → Auth → N → Option Error × N
  SendWithTLS : JweEmail → Heap → String → Auth → TLSConfig → N → Option Error × N
  SendWithStartTLS : JweEmail → Heap → String → Auth → TLSConfig → N → Option Error × N

structure Sender where
  addr : String
  auth : Auth
  sender : String
  tlsConfig : Option TLSConfig
  useStartTLS : Bool
deriving DecidableEq, Repr

/-- `type SenderOpt func(e *Sender)`. -/
abbrev SenderOpt := Sender → Sender

def WithSender (sender : String) : SenderOpt :=
  fun e => { e with sender := sender }

def WithTLSConfig (cfg : Option TLSConfig) : SenderOpt :=
  fun e => { e with tlsConfig := cfg }

def WithStartTLS (use : Bool) : SenderOpt :=
  fun e => { e with useStartTLS := use }

def NewSender (addr : String) (auth : Auth) (opts : List SenderOpt) : Sender :=
  opts.foldl (fun e opt => opt e)
    { addr := addr, auth := auth, sender := "", tlsConfig := none, useStartTLS := false }

/-- One round of the two attachment loops of `buildMessage`. -/
def appendAttachment (st : List JweAttachment × Heap) (ma : Attachment) :
    List JweAttachment × Heap :=
  let (content, h1) := st.2.make (goLen ma.Body)
  let h2 := h1.copy content ma.Body
  (st.1 ++ [{ Filename := ma.Name, ContentType := ma.ContentType, Header := [],
              Content := content }], h2)

def buildMessage (msg : Message) (h : Heap) : JweEmail × Heap :=
  let to_ := msg.To.foldl (fun acc addr => acc ++ [addr]) []
  let cc := msg.Cc.foldl (fun acc addr => acc ++ [addr]) []
  let bcc := msg.Bcc.foldl (fun acc addr => acc ++ [addr]) []
  let (text, h1) :=
    match msg.Plain with
    | some plain =>
      let (t, h0) := h.make (goLen (some plain))
      (t, h0.copy t (some plain))
    | none => (none, h)
  let (html, atts, h2) :=
    match msg.Html with
    | some body =>
      let (t, h0) := h1.make (goLen body.Body)
      let h0 := h0.copy t body.Body
      let (atts, h0) := body.Inlines.foldl appendAttachment ([], h0)
      (t, atts, h0)
    | none => (none, [], h1)
  let (atts, h3) := msg.Attachments.foldl appendAttachment (atts, h2)
  ({ From := msg.From, To := to_, Cc := cc, Bcc := bcc, Subject := msg.Subject,
     Text := text, HTML := html, Sender := "", Headers := [], Attachments := atts }, h3)

def Sender.Send {N : Type} (d : Delegate N) (e : Sender) (msg : Message) (h : Heap) (n : N) :
    Option Error × Heap × N :=
  let (m0, h1) := buildMessage msg h
  let m := if e.sender ≠ "" then { m0 with Sender := e.sender } else m0
  match e.tlsConfig with
  | none =>
    match d.Send m h1 e.addr e.auth n with
    | (some err, n1) => (some err, h1, n1)
    | (none, n1) => (none, h1, n1)
  | some tlsConfig =>
    let sendFunc := if e.useStartTLS then d.SendWithStartTLS m h1 else d.SendWithTLS m h1
    match sendFunc e.addr e.auth tlsConfig n with
    | (some err, n1) => (some err, h1, n1)
    | (none, n1) => (none, h1, n1)

def WithPlainAuth (identity username password host : String) : Auth :=
  Auth.plain identity username password host

def WithCRAMMD5Auth (username secret : String) : Auth :=
  Auth.cramMD5 username secret

/-- The Go zero value of a field left out of a `Config` literal is the default here. -/
structure Config where
  ServerAddr : String := ""
  Username : String := ""
  Password : String := ""
  UseCRAMMD5 : Bool := false
  UseClear : Bool := false
  UseStartTLS : Bool := false
deriving DecidableEq, Repr

/-- What `Config.NewSender` asks of the standard library: `net.SplitHostPort`
(host, port or an error) and `x509.SystemCertPool`. -/
structure Env where
  SplitHostPort : String → Except Error (String × String)
  SystemCertPool : Except Error CertPool

def Config.NewSender (env : Env) (c : Config) : Option Sender × Option Error :=
  let server :=
    match env.SplitHostPort c.ServerAddr with
    | .ok (host, _) => host
    | .error _ => c.ServerAddr
  let auth := if c.UseCRAMMD5 then WithCRAMMD5Auth c.Username c.Password
    else WithPlainAuth "" c.Username c.Password server
  let opts : List SenderOpt := []
  if ¬ c.UseClear then
    match env.SystemCertPool with
    | .error err => (none, some err)
    | .ok certPool =>
      let tlsConfig : TLSConfig := { RootCAs := certPool, ServerName := server }
      let opts := opts ++ [WithTLSConfig (some tlsConfig)]
      let opts := if c.UseStartTLS then opts ++ [WithStartTLS true] else opts
      (some (smtp.NewSender c.ServerAddr auth opts), none)
  else
    (some (smtp.NewSender c.ServerAddr auth opts), none)

end smtp

/-! ## package mock -/

namespace mock

/-- `type Validator func(*email.Message) error`; the validator reads the bodies from the heap. -/
abbrev Validator := Message → Heap → Option Error

/-- The mock sender; the mutex is not modelled (calls are sequential).  The
counter is a Go `int`: its arithmetic wraps around (`wrapInt`). -/
structure Sender where
  counter : Int
  validator : Option Validator
  err : Option Error

/-- `type Opt func(*Sender)`. -/
abbrev Opt := Sender → Sender

def SetValidator (v : Option Validator) : Opt :=
  fun s => { s with validator := v }

def SetError (err : Option Error) : Opt :=
  fun s => { s with err := err }

def NewSender (opts : List Opt) : Sender :=
  opts.foldl (fun s opt => opt s) { counter := 0, validator := none, err := none }

def Sender.Send (s : Sender) (m : Message) (h : Heap) : Option Error × Sender :=
  let s1 := { s with counter := wrapInt (s.counter + 1) }
  match s1.err with
  | some err => (some err, s1)
  | none =>
    match s1.validator with
    | none => (none, s1)
    | some validator =>
      match validator m h with
      | some err => (some err, s1)
      | none => (none, s1)

def Sender.MessageCount (s : Sender) : Int := s.counter

def Sender.SetError (s : Sender) (err : Option Error) : Sender :=
  { s with err := err }

def Sender.Reset (s : Sender) (opts : List Opt) : Sender :=
  let s1 := { s with counter := 0 }
  opts.foldl (fun s opt => opt s) s1

end mock

/-! ## Vocabulary of the statements -/

/-- Apply one option and carry on whatever error it returns. -/
def stepOpt {α : Type} (st : α × World) (opt : α → World → Option Error × α × World) :
    α × World :=
  ((opt st.1 st.2).2.1, (opt st.1 st.2).2.2)

/-- The value and the world after all of `opts` were applied one after the other. -/
def applyAll {α : Type} (opts : List (α → World → Option Error × α × World)) (x : α)
    (w : World) : α × World :=
  opts.foldl stepOpt (x, w)

/-- No option of `opts` returns an error when each is applied to what the options
before it left behind. -/
def AllSucceed {α : Type} (opts : List (α → World → Option Error × α × World)) (x : α)
    (w : World) : Prop :=
  ∀ (k : Nat) (opt : α → World → Option Error × α × World), opts[k]? = some opt →
    (opt (applyAll (opts.take k) x w).1 (applyAll (opts.take k) x w).2).1 = none

/-- The message `NewMessage` starts from. -/
def initialMessage (from_ subject : String) : Message :=
  { From := from_, To := [], Cc := [], Bcc := [], Subject := subject,
    Plain := none, Html := none, Attachments := [] }

/-- A call of one of the three recipient options. -/
inductive RecipientOpt where
  | To (addrs : List String)
  | Cc (addrs : List String)
  | Bcc (addrs : List String)
deriving DecidableEq, Repr

/-- The option a recipient call stands for. -/
def RecipientOpt.opt : RecipientOpt → MessageOpt
  | .To addrs => Email.To addrs
  | .Cc addrs => Email.Cc addrs
  | .Bcc addrs => Email.Bcc addrs

def RecipientOpt.toAddrs : RecipientOpt → List String
  | .To addrs => addrs
  | _ => []

def RecipientOpt.ccAddrs : RecipientOpt → List String
  | .Cc addrs => addrs
  | _ => []

def RecipientOpt.bccAddrs : RecipientOpt → List String
  | .Bcc addrs => addrs
  | _ => []

/-- A world in which nothing has been allocated and the pool was never used. -/
def emptyWorld : World :=
  { heap := { arrays := fun _ => [], next := 0 }, once := false, pool := [],
    pick := fun _ => some 0 }

/-- An option that fails with the given error and leaves the message alone. -/
def failWith (e : Error) : MessageOpt := fun m w => (some e, m, w)

namespace mock

/-- A run of `Send` calls, one per message, with the error each call returned. -/
def sendAll (s : Sender) : List (Message × Heap) → List (Option Error) × Sender
  | [] => ([], s)
  | (m, h) :: rest => ((s.Send m h).1 :: (sendAll (s.Send m h).2 rest).1,
      (sendAll (s.Send m h).2 rest).2)

/-- A call of one of the two option constructors of the mock package. -/
inductive OptCall where
  | validator (v : Option Validator)
  | error (err : Option Error)

def OptCall.opt : OptCall → Opt
  | .validator v => SetValidator v
  | .error err => SetError err

end mock

namespace smtp

/-- The email `Sender.Send` hands to the delegate: the built message, with the
Sender header of the sender when one is set. -/
def Sender.email (e : Sender) (msg : Message) (h : Heap) : JweEmail × Heap :=
  ((if e.sender ≠ "" then { (buildMessage msg h).1 with Sender := e.sender }
    else (buildMessage msg h).1), (buildMessage msg h).2)

/-- A delegate that only records which operation was called, and that fails on
the STARTTLS and clear-text operations. -/
def recordingDelegate : Delegate (List String) :=
  { Send := fun _ _ _ _ n => (some ⟨"clear refused"⟩, n ++ ["Send"]),
    SendWithTLS := fun _ _ _ _ _ n => (none, n ++ ["SendWithTLS"]),
    SendWithStartTLS := fun _ _ _ _ _ n => (some ⟨"no STARTTLS"⟩, n ++ ["SendWithStartTLS"]) }

/-- An environment whose address splitting takes the text before the first colon
and whose trust store loads. -/
def sampleEnv : Env :=
  { SplitHostPort := fun addr => .ok (String.mk (addr.data.takeWhile (fun c => c != ':')), ""),
    SystemCertPool := .ok { certs := ["root"] } }

/-- The host part of the server address, or the whole address when it cannot be split. -/
def Config.server (env : Env) (c : Config) : String :=
  match env.SplitHostPort c.ServerAddr with
  | .ok (host, _) => host
  | .error _ => c.ServerAddr

/-- A configuration in which only the server address is given. -/
def addrOnlyConfig : Config := { ServerAddr := "mail.example.com:465" }

/-- What the recording delegate has seen after one `Send` of the derived sender. -/
def recordedDelivery (r : Option Sender × Option Error) (msg : Message) : List String :=
  match r.1 with
  | some s => (s.Send recordingDelegate msg emptyWorld.heap []).2.2
  | none => []

/-- A sender with the given TLS configuration and STARTTLS flag. -/
def sampleSender (tlsConfig : Option TLSConfig) (useStartTLS : Bool) : Sender :=
  { addr := "mail.example.com:25", auth := Auth.plain "" "user" "secret" "mail.example.com",
    sender := "", tlsConfig := tlsConfig, useStartTLS := useStartTLS }

/-- An environment whose trust store cannot be loaded. -/
def brokenTrustEnv : Env :=
  { SplitHostPort := fun _ => .error ⟨"missing port in address"⟩,
    SystemCertPool := .error ⟨"no trust store"⟩ }

end smtp

/-! ### Well-formed heap values -/

/-- A slice header points into an allocated array and lies within it. -/
def Slice.Valid (h : Heap) (s : Slice) : Prop :=
  s.addr < h.next ∧ s.off + s.len ≤ (h.arrays s.addr).length

/-- A `[]byte` value is nil or a valid slice. -/
def validBytes (h : Heap) (s : ByteSlice) : Prop :=
  match s with
  | none => True
  | some s => s.Valid h

/-- The heap `h2` has everything `h1` has allocated, with the same contents. -/
def Heap.Extends (h1 h2 : Heap) : Prop :=
  h1.next ≤ h2.next ∧ ∀ a, a < h1.next → h2.arrays a = h1.arrays a

/-- Every byte slice the message holds is nil or valid in the heap. -/
def Message.Valid (h : Heap) (m : Message) : Prop :=
  validBytes h m.Plain ∧
  (∀ body, m.Html = some body →
    validBytes h body.Body ∧ ∀ a ∈ body.Inlines, validBytes h a.Body) ∧
  (∀ a ∈ m.Attachments, validBytes h a.Body)

/-- The inline attachments of the HTML body; none when there is no HTML body. -/
def Message.inlines (m : Message) : List Attachment :=
  match m.Html with
  | some body => body.Inlines
  | none => []

/-- The body of the HTML part; nil when there is no HTML body. -/
def Message.htmlBody (m : Message) : ByteSlice :=
  match m.Html with
  | some body => body.Body
  | none => none

/-- Name, content type and body bytes of an attachment. -/
def Attachment.content (h : Heap) (a : Attachment) : String × String × List Byte :=
  (a.Name, a.ContentType, h.read a.Body)

namespace smtp

/-- File name, content type and content bytes of an attachment of the delegate library. -/
def JweAttachment.content (h : Heap) (a : JweAttachment) : String × String × List Byte :=
  (a.Filename, a.ContentType, h.read a.Content)

end smtp

/-! ### The buffer pool and readers -/

/-- Every buffer cached in the pool is empty, as `bbpool.Put` leaves it, and its
backing array is allocated. -/
def PoolOK (w : World) : Prop :=
  ∀ b ∈ w.pool, b.off = 0 ∧ b.buf.off = 0 ∧ b.buf.len = 0 ∧ b.buf.addr < w.heap.next

/-- The buffer contents lie within the backing array. -/
def Buffer.InBounds (h : Heap) (b : Buffer) : Prop :=
  b.buf.off + b.buf.len ≤ (h.arrays b.buf.addr).length ∧ b.off ≤ b.buf.len

/-- The bytes a reader has not delivered yet. -/
def Reader.unread (h : Heap) : Reader → List Byte
  | .buffer b => h.read b.Bytes
  | .stream s => s.chunks.flatten

/-- Reading the source to its end succeeds. -/
def Reader.readOK : Reader → Prop
  | .buffer _ => True
  | .stream s => s.err = none

/-- A source that is a `bytes.Buffer` has its contents in an allocated array. -/
def Reader.Valid (h : Heap) : Reader → Prop
  | .buffer b => b.buf.addr < h.next ∧ b.InBounds h
  | .stream _ => True

/-- The address is allocated and is not the backing array of a pooled buffer. -/
def Protected (w : World) (a : Nat) : Prop :=
  a < w.heap.next ∧ ∀ b ∈ w.pool, b.buf.addr ≠ a

/-- From `w` to `w2` the heap only grew, the pool only holds buffers it held
before or newly allocated ones, and no protected array was written. -/
def Frame (w w2 : World) : Prop :=
  w.heap.next ≤ w2.heap.next ∧
  (∀ b ∈ w2.pool, (∃ b0 ∈ w.pool, b0.buf.addr = b.buf.addr) ∨ w.heap.next ≤ b.buf.addr) ∧
  (∀ a, Protected w a → w2.heap.arrays a = w.heap.arrays a)

/-- The statements `SetPlain`, `SetHtml` and `newAttachment` have in common, up to
the copy: the error of the read, the slice the content was copied to, the pool
buffer that is still to be released (stream sources only), and the world
before the release. -/
def ingest (r : Reader) (w : World) : Option Error × ByteSlice × Option Buffer × World :=
  match r with
  | .buffer buf =>
    let (p, h1) := w.heap.make buf.Len
    let h2 := h1.copy p buf.Bytes
    (none, p, none, { w with heap := h2 })
  | .stream s =>
    let (buf, w1) := bbpool.Get w
    match buf.ReadFrom s w1.heap with
    | (buf1, some err, h1) => (some err, none, some buf1, { w1 with heap := h1 })
    | (buf1, none, h1) =>
      let (p, h2) := h1.make buf1.Len
      let h3 := h2.copy p buf1.Bytes
      (none, p, some buf1, { w1 with heap := h3 })

/-- The deferred `bbpool.Put` of the pool buffer, if one was taken. -/
def release (b : Option Buffer) (w : World) : World :=
  match b with
  | none => w
  | some b => bbpool.Put b w

/-- The content stored in `p` is `data`, and it stays `data` when a buffer of the
pool is written to again, or when the source buffer is. -/
def Snapshot (w : World) (r : Reader) (p : ByteSlice) (data : List Byte) : Prop :=
  w.heap.read p = data ∧
  (∀ b ∈ w.pool, ∀ s : ByteStream, (b.ReadFrom s w.heap).2.2.read p = data) ∧
  (∀ b, r = .buffer b → ∀ s : ByteStream, (b.ReadFrom s w.heap).2.2.read p = data)

/-- A call of the `Inline` option. -/
structure InlineCall where
  name : String
  contentType : String
  source : Reader
deriving DecidableEq, Repr

/-- The option an `Inline` call stands for. -/
def InlineCall.opt (c : InlineCall) : HtmlOpt := Inline c.name c.contentType c.source

/-- The bytes of the body of the attachment returned by `newAttachment`. -/
def storedBody (res : Except Error Attachment × World) : List Byte :=
  match res.1 with
  | .ok a => res.2.heap.read a.Body
  | .error _ => []

/-- A world whose heap holds one array, with nothing in the pool. -/
def sampleWorld : World :=
  { heap := { arrays := fun a => if a = 0 then [1, 2, 3] else [], next := 1 },
    once := false, pool := [], pick := fun _ => some 0 }

/-- A message that already has an HTML body with one inline attachment. -/
def messageWithHtml : Message :=
  { initialMessage "a@example.com" "hi" with
    Html := some { Body := none, Inlines := [{ Name := "old.png", ContentType := "image/png",
                                               Body := none }] } }

/-- A message whose byte slices all lie in the one array of `sampleWorld`. -/
def sampleMessage : Message :=
  { From := "a@example.com", To := ["b@example.com", "c@example.com"], Cc := ["d@example.com"],
    Bcc := [], Subject := "hi", Plain := some ⟨0, 0, 2⟩,
    Html := some { Body := some ⟨0, 1, 2⟩,
                   Inlines := [{ Name := "logo.png", ContentType := "image/png",
                                 Body := some ⟨0, 0, 1⟩ }] },
    Attachments := [{ Name := "doc.pdf", ContentType := "application/pdf",
                      Body := some ⟨0, 2, 1⟩ },
                    { Name := "empty", ContentType := "text/plain", Body := none }] }

/-- A file system with the one file docs/report.pdf. -/
def sampleFS : FS :=
  { Open := fun name =>
      if name = "docs/report.pdf" then .ok ⟨⟨[[37, 80], [68, 70]], none⟩⟩
      else .error ⟨"file does not exist"⟩ }

/-- An extension-to-MIME mapping that knows the extension pdf only. -/
def sampleTypes : String → String :=
  fun ext => if ext = ".pdf" then "application/pdf" else ""

/-! ## Theorems -/

theorem applyAll_nil {α : Type} (x : α) (w : World) :
    applyAll ([] : List (α → World → Option Error × α × World)) x w = (x, w) := rfl

theorem applyAll_cons {α : Type} (opt : α → World → Option Error × α × World)
    (rest : List (α → World → Option Error × α × World)) (x : α) (w : World) :
    applyAll (opt :: rest) x w = applyAll rest (opt x w).2.1 (opt x w).2.2 := rfl

theorem allSucceed_cons {α : Type} (opt : α → World → Option Error × α × World)
    (rest : List (α → World → Option Error × α × World)) (x : α) (w : World) :
    AllSucceed (opt :: rest) x w ↔
      (opt x w).1 = none ∧ AllSucceed rest (opt x w).2.1 (opt x w).2.2 := by
  unfold AllSucceed
  constructor
  · intro h
    refine ⟨?_, ?_⟩
    · simpa [applyAll_nil] using h 0 opt (by simp)
    · intro k o hk
      have := h (k + 1) o (by simpa using hk)
      simpa [List.take_succ_cons, applyAll_cons] using this
  · rintro ⟨h0, hr⟩ k o hk
    cases k with
    | zero =>
      simp at hk
      subst hk
      simpa [applyAll_nil] using h0
    | succ k =>
      have := hr k o (by simpa using hk)
      simpa [List.take_succ_cons, applyAll_cons] using this

theorem rangeOpts_of_allSucceed {α : Type} (opts : List (α → World → Option Error × α × World))
    (x : α) (w : World) (h : AllSucceed opts x w) :
    rangeOpts opts x w = (none, (applyAll opts x w).1, (applyAll opts x w).2) := by
  induction opts generalizing x w with
  | nil => rfl
  | cons opt rest ih =>
    obtain ⟨h0, hr⟩ := (allSucceed_cons opt rest x w).1 h
    rw [rangeOpts, applyAll_cons]
    rcases hres : opt x w with ⟨e, x1, w1⟩
    rw [hres] at h0 hr
    simp only at h0 hr
    subst h0
    exact ih x1 w1 hr

theorem rangeOpts_first_error {α : Type}
    (pre : List (α → World → Option Error × α × World))
    (opt : α → World → Option Error × α × World)
    (post : List (α → World → Option Error × α × World)) (x : α) (w : World) (e : Error)
    (hpre : AllSucceed pre x w)
    (hopt : (opt (applyAll pre x w).1 (applyAll pre x w).2).1 = some e) :
    rangeOpts (pre ++ opt :: post) x w =
      (some e, (opt (applyAll pre x w).1 (applyAll pre x w).2).2) := by
  induction pre generalizing x w with
  | nil =>
    simp only [List.nil_append, applyAll_nil] at hopt ⊢
    rw [rangeOpts]
    rcases hres : opt x w with ⟨e1, x1, w1⟩
    rw [hres] at hopt
    simp only at hopt
    subst hopt
    rfl
  | cons o rest ih =>
    obtain ⟨h0, hr⟩ := (allSucceed_cons o rest x w).1 hpre
    rw [applyAll_cons] at hopt ⊢
    rw [List.cons_append, rangeOpts]
    rcases hres : o x w with ⟨e1, x1, w1⟩
    rw [hres] at h0 hr hopt
    simp only at h0 hr hopt ⊢
    subst h0
    exact ih x1 w1 hr hopt

theorem allSucceed_or_first_failure {α : Type}
    (opts : List (α → World → Option Error × α × World)) (x : α) (w : World) :
    AllSucceed opts x w ∨
    ∃ (pre : List (α → World → Option Error × α × World))
      (opt : α → World → Option Error × α × World)
      (post : List (α → World → Option Error × α × World)) (e : Error),
      opts = pre ++ opt :: post ∧ AllSucceed pre x w ∧
      (opt (applyAll pre x w).1 (applyAll pre x w).2).1 = some e := by
  induction opts generalizing x w with
  | nil => exact Or.inl (fun k opt hk => by simp at hk)
  | cons o rest ih =>
    cases ho : (o x w).1 with
    | some e =>
      refine Or.inr ⟨[], o, rest, e, rfl, fun k opt hk => by simp at hk, ?_⟩
      rw [applyAll_nil]
      exact ho
    | none =>
      rcases ih (o x w).2.1 (o x w).2.2 with hall | ⟨pre, opt, post, e, hsplit, hpre, hopt⟩
      · exact Or.inl ((allSucceed_cons o rest x w).2 ⟨ho, hall⟩)
      · refine Or.inr ⟨o :: pre, opt, post, e, by rw [hsplit, List.cons_append],
          (allSucceed_cons o pre x w).2 ⟨ho, hpre⟩, ?_⟩
        rw [applyAll_cons]
        exact hopt

/-- C1: `NewMessage` applies the options in the order given to a message that has
only From and Subject.  If an option fails after all options before it
succeeded, the result is a nil message with exactly that error, and the world
is the one that option left behind, whatever options follow it (none of them
is applied).  If no option fails, the result is a nil error and the message
obtained by applying all options in order.  One of the two is always the case. -/
theorem NewMessage_options_in_order (from_ subject : String) (opts : List MessageOpt)
    (w : World) :
    (∀ (pre : List MessageOpt) (opt : MessageOpt) (post : List MessageOpt) (e : Error),
        opts = pre ++ opt :: post →
        AllSucceed pre (initialMessage from_ subject) w →
        (opt (applyAll pre (initialMessage from_ subject) w).1
             (applyAll pre (initialMessage from_ subject) w).2).1 = some e →
        NewMessage from_ subject opts w =
          ((none, some e),
            (opt (applyAll pre (initialMessage from_ subject) w).1
                 (applyAll pre (initialMessage from_ subject) w).2).2.2)) ∧
    (AllSucceed opts (initialMessage from_ subject) w →
        NewMessage from_ subject opts w =
          ((some (applyAll opts (initialMessage from_ subject) w).1, none),
            (applyAll opts (initialMessage from_ subject) w).2)) ∧
    (AllSucceed opts (initialMessage from_ subject) w ∨
      ∃ (pre : List MessageOpt) (opt : MessageOpt) (post : List MessageOpt) (e : Error),
        opts = pre ++ opt :: post ∧ AllSucceed pre (initialMessage from_ subject) w ∧
        (opt (applyAll pre (initialMessage from_ subject) w).1
             (applyAll pre (initialMessage from_ subject) w).2).1 = some e) := by
  refine ⟨?_, ?_, allSucceed_or_first_failure opts _ w⟩
  · intro pre opt post e hsplit hpre hopt
    subst hsplit
    have h := rangeOpts_first_error pre opt post (initialMessage from_ subject) w e hpre hopt
    unfold NewMessage
    simp only [initialMessage] at h ⊢
    rw [h]
  · intro hall
    have h := rangeOpts_of_allSucceed opts (initialMessage from_ subject) w hall
    unfold NewMessage
    simp only [initialMessage] at h ⊢
    rw [h]

theorem allSucceed_nil {α : Type} (x : α) (w : World) :
    AllSucceed ([] : List (α → World → Option Error × α × World)) x w := by
  intro k opt hk
  simp at hk

/-- C1, at a concrete input: of the options To, a failing option and Cc, the
failing one ends the construction with its own error. -/
theorem NewMessage_options_in_order_witness :
    NewMessage "me@example.com" "hello" [To ["a@example.com"], failWith ⟨"boom"⟩,
      Cc ["b@example.com"]] emptyWorld = ((none, some ⟨"boom"⟩), emptyWorld) :=
  (NewMessage_options_in_order "me@example.com" "hello"
      [To ["a@example.com"], failWith ⟨"boom"⟩, Cc ["b@example.com"]] emptyWorld).1
    [To ["a@example.com"]] (failWith ⟨"boom"⟩) [Cc ["b@example.com"]] ⟨"boom"⟩ rfl
    ((allSucceed_cons _ _ _ _).2 ⟨rfl, allSucceed_nil _ _⟩) rfl

theorem AddTo_eq (m : Message) (addrs : List String) :
    m.AddTo addrs = { m with To := m.To ++ addrs } := by
  unfold Message.AddTo
  induction addrs generalizing m with
  | nil => simp
  | cons a rest ih => simp [List.foldl_cons, ih]

theorem AddCc_eq (m : Message) (addrs : List String) :
    m.AddCc addrs = { m with Cc := m.Cc ++ addrs } := by
  unfold Message.AddCc
  induction addrs generalizing m with
  | nil => simp
  | cons a rest ih => simp [List.foldl_cons, ih]

theorem AddBcc_eq (m : Message) (addrs : List String) :
    m.AddBcc addrs = { m with Bcc := m.Bcc ++ addrs } := by
  unfold Message.AddBcc
  induction addrs generalizing m with
  | nil => simp
  | cons a rest ih => simp [List.foldl_cons, ih]

theorem rangeOpts_recipients (rs : List RecipientOpt) (m : Message) (w : World) :
    rangeOpts (rs.map RecipientOpt.opt) m w =
      (none,
        { m with
          To := m.To ++ (rs.map RecipientOpt.toAddrs).flatten,
          Cc := m.Cc ++ (rs.map RecipientOpt.ccAddrs).flatten,
          Bcc := m.Bcc ++ (rs.map RecipientOpt.bccAddrs).flatten }, w) := by
  induction rs generalizing m with
  | nil => simp [rangeOpts]
  | cons r rest ih =>
    cases r with
    | To addrs =>
      simp [rangeOpts, RecipientOpt.opt, To, AddTo_eq, ih, RecipientOpt.toAddrs,
        RecipientOpt.ccAddrs, RecipientOpt.bccAddrs]
    | Cc addrs =>
      simp [rangeOpts, RecipientOpt.opt, Cc, AddCc_eq, ih, RecipientOpt.toAddrs,
        RecipientOpt.ccAddrs, RecipientOpt.bccAddrs]
    | Bcc addrs =>
      simp [rangeOpts, RecipientOpt.opt, Bcc, AddBcc_eq, ih, RecipientOpt.toAddrs,
        RecipientOpt.ccAddrs, RecipientOpt.bccAddrs]

/-- C3: a message built by `NewMessage` from any sequence of To, Cc and Bcc
options has as its To list the concatenation, in call order, of the address
lists of the To options, and likewise for Cc and Bcc, nothing dropped,
reordered or de-duplicated; and each of the three options appends its
addresses to its own list and leaves the other two lists as they were. -/
theorem NewMessage_recipients_in_call_order (from_ subject : String)
    (rs : List RecipientOpt) (w : World) :
    (∃ m : Message,
        NewMessage from_ subject (rs.map RecipientOpt.opt) w = ((some m, none), w) ∧
        m.To = (rs.map RecipientOpt.toAddrs).flatten ∧
        m.Cc = (rs.map RecipientOpt.ccAddrs).flatten ∧
        m.Bcc = (rs.map RecipientOpt.bccAddrs).flatten) ∧
    (∀ (m : Message) (addrs : List String),
        (To addrs m w = (none, { m with To := m.To ++ addrs }, w)) ∧
        (Cc addrs m w = (none, { m with Cc := m.Cc ++ addrs }, w)) ∧
        (Bcc addrs m w = (none, { m with Bcc := m.Bcc ++ addrs }, w))) := by
  refine ⟨?_, ?_⟩
  · refine ⟨{ initialMessage from_ subject with
        To := (rs.map RecipientOpt.toAddrs).flatten,
        Cc := (rs.map RecipientOpt.ccAddrs).flatten,
        Bcc := (rs.map RecipientOpt.bccAddrs).flatten }, ?_, rfl, rfl, rfl⟩
    unfold NewMessage
    simp [rangeOpts_recipients, initialMessage]
  · intro m addrs
    simp [To, Cc, Bcc, AddTo_eq, AddCc_eq, AddBcc_eq]

namespace mock

theorem wrapInt_of_inRange (x : Int) (h1 : minInt ≤ x) (h2 : x ≤ maxInt) : wrapInt x = x := by
  unfold wrapInt
  unfold minInt at h1
  unfold maxInt at h2
  omega

theorem Send_fixed_error (s : Sender) (e : Error) (hs : s.err = some e) (m : Message)
    (h : Heap) : s.Send m h = (some e, { s with counter := wrapInt (s.counter + 1) }) := by
  simp [Sender.Send, hs]

theorem sendAll_fixed_error (s : Sender) (e : Error) (hs : s.err = some e)
    (ms : List (Message × Heap)) :
    (sendAll s ms).1 = ms.map (fun _ => some e) ∧
    (sendAll s ms).2.err = some e ∧
    (minInt ≤ s.counter → s.counter + ms.length ≤ maxInt →
      (sendAll s ms).2.counter = s.counter + ms.length) := by
  induction ms generalizing s with
  | nil => simp [sendAll, hs]
  | cons mh rest ih =>
    obtain ⟨m, h⟩ := mh
    have hsend := Send_fixed_error s e hs m h
    have := ih { s with counter := wrapInt (s.counter + 1) } hs
    simp only [sendAll, hsend, List.map_cons, List.length_cons]
    refine ⟨by rw [this.1], this.2.1, ?_⟩
    intro hlo hhi
    push_cast at hhi
    have hw : wrapInt (s.counter + 1) = s.counter + 1 :=
      wrapInt_of_inRange _ (by omega) (by omega)
    have h3 := this.2.2
    simp only [hw] at h3 ⊢
    rw [h3 (by omega) (by omega)]
    push_cast
    ring

theorem foldl_optCall_counter (cs : List OptCall) (s : Sender) :
    (cs.foldl (fun s c => c.opt s) s).counter = s.counter := by
  induction cs generalizing s with
  | nil => rfl
  | cons c rest ih =>
    rw [List.foldl_cons, ih]
    cases c <;> rfl

theorem foldl_validator_err (vs : List (Option Validator)) (s : Sender) :
    (vs.foldl (fun s v => SetValidator v s) s).err = s.err := by
  induction vs generalizing s with
  | nil => rfl
  | cons v rest ih =>
    rw [List.foldl_cons, ih]
    rfl

theorem NewSender_error_last (pre : List OptCall) (e : Error) (vs : List (Option Validator)) :
    (NewSender (pre.map OptCall.opt ++ [SetError (some e)] ++ vs.map SetValidator)).err = some e ∧
    (NewSender (pre.map OptCall.opt ++ [SetError (some e)] ++ vs.map SetValidator)).counter = 0 := by
  refine ⟨?_, ?_⟩
  · unfold NewSender
    rw [List.foldl_append, List.foldl_append, List.foldl_map, List.foldl_map,
      foldl_validator_err]
    rfl
  · have heq : pre.map OptCall.opt ++ [SetError (some e)] ++ vs.map SetValidator =
        (pre ++ [OptCall.error (some e)] ++ vs.map OptCall.validator).map OptCall.opt := by
      simp only [List.map_append, List.map_map, List.map_cons, List.map_nil]
      rfl
    rw [heq]
    unfold NewSender
    rw [List.foldl_map]
    exact foldl_optCall_counter _ _

/-- C9 fails where the counter is at the largest `int`: a sender that has counted
`maxInt` calls and is given a fixed error by the `SetError` method still
returns that error from the next `Send`, but its `MessageCount` goes from
`maxInt` to `minInt` instead of growing by one. -/
theorem Send_count_wraps_counterexample :
    ((((Sender.mk maxInt none none).SetError (some ⟨"down"⟩)).Send
      (initialMessage "a@example.com" "hi") emptyWorld.heap).1 = some ⟨"down"⟩) ∧
    (((Sender.mk maxInt none none).SetError (some ⟨"down"⟩)).MessageCount =
      9223372036854775807) ∧
    ((((Sender.mk maxInt none none).SetError (some ⟨"down"⟩)).Send
      (initialMessage "a@example.com" "hi") emptyWorld.heap).2.MessageCount =
        -9223372036854775808) ∧
    ((((Sender.mk maxInt none none).SetError (some ⟨"down"⟩)).Send
      (initialMessage "a@example.com" "hi") emptyWorld.heap).2.MessageCount ≠
        ((Sender.mk maxInt none none).SetError (some ⟨"down"⟩)).MessageCount + 1) := by
  have hwrap : wrapInt (maxInt + 1) = -9223372036854775808 := by decide
  have hsend := Send_fixed_error ((Sender.mk maxInt none none).SetError (some ⟨"down"⟩))
    ⟨"down"⟩ rfl (initialMessage "a@example.com" "hi") emptyWorld.heap
  rw [hsend]
  refine ⟨rfl, rfl, hwrap, ?_⟩
  show wrapInt (maxInt + 1) ≠ maxInt + 1
  rw [hwrap]
  decide

/-- C9, amended: a mock sender given a fixed non-nil error, by the `SetError`
option at construction (whatever options stand before it, and whatever
validators are set after it) or by the `SetError` method on any sender
(whatever its validator), returns exactly that error from every `Send` call of
any run of calls.  Each call moves `MessageCount` to the wrapped successor of
its value, which is one more as long as the count stays within the range of
`int`: a run that does not take the count past `maxInt` adds one per call.
After any run, `Reset` (with any options of the package) makes `MessageCount`
zero. -/
theorem Send_fixed_error_counts_below_max (s : Sender) (e : Error) (pre : List OptCall)
    (vs : List (Option Validator)) (ms : List (Message × Heap)) (resetOpts : List OptCall) :
    ((sendAll (NewSender (pre.map OptCall.opt ++ [SetError (some e)] ++ vs.map SetValidator))
        ms).1 = ms.map (fun _ => some e) ∧
      ((ms.length : Int) ≤ maxInt →
        (sendAll (NewSender (pre.map OptCall.opt ++ [SetError (some e)] ++ vs.map SetValidator))
          ms).2.MessageCount = ms.length) ∧
      ((sendAll (NewSender (pre.map OptCall.opt ++ [SetError (some e)] ++ vs.map SetValidator))
        ms).2.Reset (resetOpts.map OptCall.opt)).MessageCount = 0) ∧
    ((sendAll (s.SetError (some e)) ms).1 = ms.map (fun _ => some e) ∧
      (minInt ≤ s.MessageCount → s.MessageCount + ms.length ≤ maxInt →
        (sendAll (s.SetError (some e)) ms).2.MessageCount = s.MessageCount + ms.length) ∧
      ((sendAll (s.SetError (some e)) ms).2.Reset (resetOpts.map OptCall.opt)).MessageCount = 0) ∧
    (∀ (m : Message) (h : Heap),
      ((s.SetError (some e)).Send m h).1 = some e ∧
      ((s.SetError (some e)).Send m h).2.MessageCount = wrapInt (s.MessageCount + 1) ∧
      (minInt ≤ s.MessageCount → s.MessageCount < maxInt →
        ((s.SetError (some e)).Send m h).2.MessageCount = s.MessageCount + 1)) := by
  have hreset : ∀ t : Sender, (t.Reset (resetOpts.map OptCall.opt)).MessageCount = 0 := by
    intro t
    unfold Sender.Reset Sender.MessageCount
    rw [List.foldl_map]
    exact foldl_optCall_counter resetOpts _
  obtain ⟨hn1, hn2⟩ := NewSender_error_last pre e vs
  have h1 := sendAll_fixed_error _ e hn1 ms
  have h2 := sendAll_fixed_error (s.SetError (some e)) e rfl ms
  refine ⟨⟨h1.1, ?_, hreset _⟩, ⟨h2.1, ?_, hreset _⟩, ?_⟩
  · intro hlen
    unfold Sender.MessageCount
    rw [h1.2.2 (by rw [hn2]; decide) (by rw [hn2]; simpa using hlen), hn2]
    simp
  · intro hlo hhi
    exact h2.2.2 hlo hhi
  · intro m h
    have hsend := Send_fixed_error (s.SetError (some e)) e rfl m h
    rw [hsend]
    refine ⟨rfl, rfl, ?_⟩
    intro hlo hhi
    unfold Sender.MessageCount at hlo hhi
    exact wrapInt_of_inRange (s.counter + 1) (by omega) (by omega)

/-- C9 amended, at a sender that has counted 41 calls: the next `Send` returns the
error and the count is 42; and a new sender counts a run of two calls. -/
theorem Send_fixed_error_counts_below_max_witness :
    (((Sender.mk 41 none none).SetError (some ⟨"down"⟩)).Send
      (initialMessage "a@example.com" "hi") emptyWorld.heap).2.MessageCount = 42 ∧
    (sendAll (NewSender [SetError (some ⟨"down"⟩)])
      [(initialMessage "a@example.com" "hi", emptyWorld.heap),
       (initialMessage "b@example.com" "hi", emptyWorld.heap)]).2.MessageCount = 2 :=
  ⟨((Send_fixed_error_counts_below_max (Sender.mk 41 none none) ⟨"down"⟩ [] [] [] []).2.2
      (initialMessage "a@example.com" "hi") emptyWorld.heap).2.2 (by decide) (by decide),
    (Send_fixed_error_counts_below_max (Sender.mk 41 none none) ⟨"down"⟩ [] []
      [(initialMessage "a@example.com" "hi", emptyWorld.heap),
       (initialMessage "b@example.com" "hi", emptyWorld.heap)] []).1.2.1 (by decide)⟩

end mock

namespace smtp

theorem Send_without_tls {N : Type} (d : Delegate N) (e : Sender) (msg : Message)
    (h : Heap) (n : N) (ht : e.tlsConfig = none) :
    e.Send d msg h n =
      ((d.Send (e.email msg h).1 (e.email msg h).2 e.addr e.auth n).1, (e.email msg h).2,
       (d.Send (e.email msg h).1 (e.email msg h).2 e.addr e.auth n).2) := by
  unfold Sender.Send Sender.email
  simp only [ht]
  generalize buildMessage msg h = bm
  obtain ⟨m0, h1⟩ := bm
  dsimp only
  generalize d.Send _ _ _ _ _ = r
  rcases r with ⟨_ | err, n1⟩ <;> rfl

theorem Send_direct_tls {N : Type} (d : Delegate N) (e : Sender) (msg : Message)
    (h : Heap) (n : N) (cfg : TLSConfig) (ht : e.tlsConfig = some cfg)
    (hs : e.useStartTLS = false) :
    e.Send d msg h n =
      ((d.SendWithTLS (e.email msg h).1 (e.email msg h).2 e.addr e.auth cfg n).1,
       (e.email msg h).2,
       (d.SendWithTLS (e.email msg h).1 (e.email msg h).2 e.addr e.auth cfg n).2) := by
  unfold Sender.Send Sender.email
  simp only [ht, hs, Bool.false_eq_true, ↓reduceIte]
  generalize buildMessage msg h = bm
  obtain ⟨m0, h1⟩ := bm
  dsimp only
  generalize d.SendWithTLS _ _ _ _ _ _ = r
  rcases r with ⟨_ | err, n1⟩ <;> rfl

theorem Send_starttls {N : Type} (d : Delegate N) (e : Sender) (msg : Message)
    (h : Heap) (n : N) (cfg : TLSConfig) (ht : e.tlsConfig = some cfg)
    (hs : e.useStartTLS = true) :
    e.Send d msg h n =
      ((d.SendWithStartTLS (e.email msg h).1 (e.email msg h).2 e.addr e.auth cfg n).1,
       (e.email msg h).2,
       (d.SendWithStartTLS (e.email msg h).1 (e.email msg h).2 e.addr e.auth cfg n).2) := by
  unfold Sender.Send Sender.email
  simp only [ht, hs, Bool.false_eq_true, ↓reduceIte]
  generalize buildMessage msg h = bm
  obtain ⟨m0, h1⟩ := bm
  dsimp only
  generalize d.SendWithStartTLS _ _ _ _ _ _ = r
  rcases r with ⟨_ | err, n1⟩ <;> rfl

theorem Config_NewSender_clear (env : Env) (c : Config) (hc : c.UseClear = true) :
    c.NewSender env =
      (some { addr := c.ServerAddr,
              auth := if c.UseCRAMMD5 then Auth.cramMD5 c.Username c.Password
                else Auth.plain "" c.Username c.Password (c.server env),
              sender := "", tlsConfig := none, useStartTLS := false }, none) := by
  unfold Config.NewSender Config.server
  simp [hc, NewSender, WithCRAMMD5Auth, WithPlainAuth]

theorem Config_NewSender_tls (env : Env) (c : Config) (pool : CertPool)
    (hc : c.UseClear = false) (hp : env.SystemCertPool = .ok pool) :
    c.NewSender env =
      (some { addr := c.ServerAddr,
              auth := if c.UseCRAMMD5 then Auth.cramMD5 c.Username c.Password
                else Auth.plain "" c.Username c.Password (c.server env),
              sender := "",
              tlsConfig := some { RootCAs := pool, ServerName := c.server env },
              useStartTLS := c.UseStartTLS }, none) := by
  unfold Config.NewSender Config.server
  cases hst : c.UseStartTLS <;>
    simp [hc, hp, hst, NewSender, WithCRAMMD5Auth, WithPlainAuth, WithTLSConfig, WithStartTLS]

/-- C6: `Send` hands the built email to exactly one delivery operation of the
delegate: the clear-text one when the sender has no TLS configuration (whatever
the STARTTLS flag), the direct TLS one when it has a TLS configuration and the
STARTTLS flag is unset, the STARTTLS one when it has a TLS configuration and the
flag is set.  The error and the outside world are those of that one call, so
`Send` succeeds exactly when the call does. -/
theorem Send_chooses_one_delivery {N : Type} (d : Delegate N) (e : Sender) (msg : Message)
    (h : Heap) (n : N) :
    (e.tlsConfig = none →
      e.Send d msg h n =
        ((d.Send (e.email msg h).1 (e.email msg h).2 e.addr e.auth n).1, (e.email msg h).2,
         (d.Send (e.email msg h).1 (e.email msg h).2 e.addr e.auth n).2)) ∧
    (∀ cfg : TLSConfig, e.tlsConfig = some cfg → e.useStartTLS = false →
      e.Send d msg h n =
        ((d.SendWithTLS (e.email msg h).1 (e.email msg h).2 e.addr e.auth cfg n).1,
         (e.email msg h).2,
         (d.SendWithTLS (e.email msg h).1 (e.email msg h).2 e.addr e.auth cfg n).2)) ∧
    (∀ cfg : TLSConfig, e.tlsConfig = some cfg → e.useStartTLS = true →
      e.Send d msg h n =
        ((d.SendWithStartTLS (e.email msg h).1 (e.email msg h).2 e.addr e.auth cfg n).1,
         (e.email msg h).2,
         (d.SendWithStartTLS (e.email msg h).1 (e.email msg h).2 e.addr e.auth cfg n).2)) :=
  ⟨Send_without_tls d e msg h n, fun cfg ht hs => Send_direct_tls d e msg h n cfg ht hs,
    fun cfg ht hs => Send_starttls d e msg h n cfg ht hs⟩

/-- C6, at concrete senders: without a TLS configuration the clear-text operation
is the one called although the STARTTLS flag is set; with a TLS configuration
the flag decides between the direct TLS and the STARTTLS operation. -/
theorem Send_chooses_one_delivery_witness :
    ((sampleSender none true).Send recordingDelegate (initialMessage "a@example.com" "hi")
        emptyWorld.heap []).2.2 = ["Send"] ∧
    ((sampleSender (some ⟨⟨[]⟩, "mail.example.com"⟩) false).Send recordingDelegate
        (initialMessage "a@example.com" "hi") emptyWorld.heap []).2.2 = ["SendWithTLS"] ∧
    ((sampleSender (some ⟨⟨[]⟩, "mail.example.com"⟩) true).Send recordingDelegate
        (initialMessage "a@example.com" "hi") emptyWorld.heap []).1 = some ⟨"no STARTTLS"⟩ := by
  refine ⟨?_, ?_, ?_⟩
  · rw [(Send_chooses_one_delivery recordingDelegate (sampleSender none true)
      (initialMessage "a@example.com" "hi") emptyWorld.heap []).1 rfl]
    rfl
  · rw [(Send_chooses_one_delivery recordingDelegate
      (sampleSender (some ⟨⟨[]⟩, "mail.example.com"⟩) false)
      (initialMessage "a@example.com" "hi") emptyWorld.heap []).2.1 _ rfl rfl]
    rfl
  · rw [(Send_chooses_one_delivery recordingDelegate
      (sampleSender (some ⟨⟨[]⟩, "mail.example.com"⟩) true)
      (initialMessage "a@example.com" "hi") emptyWorld.heap []).2.2 _ rfl rfl]
    rfl

/-- C7 fails: a configuration that gives only the server address leaves
UseStartTLS and UseClear at their zero value false; the sender derived from it
has a TLS configuration but STARTTLS disabled, and its delivery is the direct
TLS operation, not the STARTTLS one. -/
theorem Config_UseStartTLS_default_counterexample :
    addrOnlyConfig.UseStartTLS = false ∧ addrOnlyConfig.UseClear = false ∧
    (addrOnlyConfig.NewSender sampleEnv).1.map (fun s => s.useStartTLS) = some false ∧
    (addrOnlyConfig.NewSender sampleEnv).1.map (fun s => s.tlsConfig.isSome) = some true ∧
    recordedDelivery (addrOnlyConfig.NewSender sampleEnv) (initialMessage "a@example.com" "hi")
      = ["SendWithTLS"] := by
  refine ⟨rfl, rfl, ?_, ?_, ?_⟩
  · rw [Config_NewSender_tls sampleEnv addrOnlyConfig ⟨["root"]⟩ rfl rfl]
    rfl
  · rw [Config_NewSender_tls sampleEnv addrOnlyConfig ⟨["root"]⟩ rfl rfl]
    rfl
  · rw [Config_NewSender_tls sampleEnv addrOnlyConfig ⟨["root"]⟩ rfl rfl]
    unfold recordedDelivery
    simp only
    rw [Send_direct_tls recordingDelegate _ _ _ _ _ rfl rfl]
    rfl

/-- C7, amended: UseStartTLS has no default of its own, left out of a Config it
is false.  When TLS is used (UseClear false) and the trust store loads, the
derived sender has a TLS configuration and its STARTTLS flag is the value of
UseStartTLS: with UseStartTLS false every delivery is the direct TLS operation,
with UseStartTLS true it is the STARTTLS operation. -/
theorem Config_UseStartTLS_as_given (env : Env) (c : Config) (pool : CertPool)
    (hc : c.UseClear = false) (hp : env.SystemCertPool = .ok pool) :
    ({ ServerAddr := c.ServerAddr } : Config).UseStartTLS = false ∧
    ∃ s : Sender, c.NewSender env = (some s, none) ∧
      s.tlsConfig = some { RootCAs := pool, ServerName := c.server env } ∧
      s.useStartTLS = c.UseStartTLS ∧
      (c.UseStartTLS = false →
        ∀ (N : Type) (d : Delegate N) (msg : Message) (h : Heap) (n : N),
          s.Send d msg h n =
            ((d.SendWithTLS (s.email msg h).1 (s.email msg h).2 s.addr s.auth
                { RootCAs := pool, ServerName := c.server env } n).1,
             (s.email msg h).2,
             (d.SendWithTLS (s.email msg h).1 (s.email msg h).2 s.addr s.auth
                { RootCAs := pool, ServerName := c.server env } n).2)) ∧
      (c.UseStartTLS = true →
        ∀ (N : Type) (d : Delegate N) (msg : Message) (h : Heap) (n : N),
          s.Send d msg h n =
            ((d.SendWithStartTLS (s.email msg h).1 (s.email msg h).2 s.addr s.auth
                { RootCAs := pool, ServerName := c.server env } n).1,
             (s.email msg h).2,
             (d.SendWithStartTLS (s.email msg h).1 (s.email msg h).2 s.addr s.auth
                { RootCAs := pool, ServerName := c.server env } n).2)) := by
  refine ⟨rfl, _, Config_NewSender_tls env c pool hc hp, rfl, rfl, ?_, ?_⟩
  · intro hst N d msg h n
    exact Send_direct_tls d _ msg h n _ rfl hst
  · intro hst N d msg h n
    exact Send_starttls d _ msg h n _ rfl hst

/-- C7 amended, at the configuration that gives only the server address. -/
theorem Config_UseStartTLS_as_given_witness :
    ∃ s : Sender, addrOnlyConfig.NewSender sampleEnv = (some s, none) ∧
      s.useStartTLS = false := by
  obtain ⟨_, s, h1, _, h3, _, _⟩ :=
    Config_UseStartTLS_as_given sampleEnv addrOnlyConfig ⟨["root"]⟩ rfl rfl
  exact ⟨s, h1, h3⟩

/-- C8: when the system trust store loads, the sender derived by
`Config.NewSender` has a TLS configuration (the trust store and the host of
the address) exactly when UseClear is false, has STARTTLS enabled exactly when
UseClear is false and UseStartTLS is true, authenticates by CRAM-MD5 when
UseCRAMMD5 is true and by plain authentication otherwise, and keeps ServerAddr
as its delivery address.  When UseClear is true `NewSender` succeeds whether or
not the trust store loads. -/
theorem Config_NewSender_derivation (env : Env) (c : Config) :
    (∀ pool : CertPool, env.SystemCertPool = .ok pool →
      ∃ s : Sender, c.NewSender env = (some s, none) ∧
        (s.tlsConfig ≠ none ↔ c.UseClear = false) ∧
        (c.UseClear = false →
          s.tlsConfig = some { RootCAs := pool, ServerName := c.server env }) ∧
        (s.useStartTLS = true ↔ (c.UseClear = false ∧ c.UseStartTLS = true)) ∧
        (c.UseCRAMMD5 = true → s.auth = Auth.cramMD5 c.Username c.Password) ∧
        (c.UseCRAMMD5 = false →
          s.auth = Auth.plain "" c.Username c.Password (c.server env)) ∧
        s.addr = c.ServerAddr) ∧
    (c.UseClear = true → ∃ s : Sender, c.NewSender env = (some s, none)) := by
  refine ⟨?_, ?_⟩
  · intro pool hp
    cases hc : c.UseClear with
    | true =>
      refine ⟨_, Config_NewSender_clear env c hc, ?_, ?_, ?_, ?_, ?_, rfl⟩
      · simp
      · intro h
        cases h
      · simp
      · intro h
        simp [h]
      · intro h
        simp [h]
    | false =>
      refine ⟨_, Config_NewSender_tls env c pool hc hp, ?_, ?_, ?_, ?_, ?_, rfl⟩
      · simp
      · intro _
        rfl
      · simp
      · intro h
        simp [h]
      · intro h
        simp [h]
  · intro hc
    exact ⟨_, Config_NewSender_clear env c hc⟩

/-- C8, at concrete configurations: with TLS and a loading trust store, and in
clear text with a trust store that does not load. -/
theorem Config_NewSender_derivation_witness :
    (∃ s : Sender, addrOnlyConfig.NewSender sampleEnv = (some s, none) ∧
      s.addr = "mail.example.com:465") ∧
    (∃ s : Sender,
      ({ ServerAddr := "localhost:25", UseClear := true } : Config).NewSender brokenTrustEnv
        = (some s, none)) := by
  refine ⟨?_, ?_⟩
  · obtain ⟨s, h1, _, _, _, _, _, h7⟩ :=
      (Config_NewSender_derivation sampleEnv addrOnlyConfig).1 ⟨["root"]⟩ rfl
    exact ⟨s, h1, h7⟩
  · exact (Config_NewSender_derivation brokenTrustEnv
      { ServerAddr := "localhost:25", UseClear := true }).2 rfl

end smtp

/-! ### The heap -/

theorem read_congr (h1 h2 : Heap) (s : Slice) (e : h2.arrays s.addr = h1.arrays s.addr) :
    h2.read (some s) = h1.read (some s) := by
  simp [Heap.read, e]

theorem length_read (h : Heap) (s : Slice) (hv : s.off + s.len ≤ (h.arrays s.addr).length) :
    (h.read (some s)).length = s.len := by
  simp only [Heap.read, List.length_take, List.length_drop]
  omega

theorem extends_refl (h : Heap) : h.Extends h := ⟨le_refl _, fun _ _ => rfl⟩

theorem extends_trans {h1 h2 h3 : Heap} (h12 : h1.Extends h2) (h23 : h2.Extends h3) :
    h1.Extends h3 :=
  ⟨le_trans h12.1 h23.1, fun a ha => by
    rw [h23.2 a (lt_of_lt_of_le ha h12.1), h12.2 a ha]⟩

theorem read_of_extends {h1 h2 : Heap} (hx : h1.Extends h2) (s : ByteSlice)
    (hv : validBytes h1 s) : h2.read s = h1.read s := by
  cases s with
  | none => rfl
  | some s => exact read_congr h1 h2 s (hx.2 s.addr hv.1)

theorem valid_of_extends {h1 h2 : Heap} (hx : h1.Extends h2) (s : ByteSlice)
    (hv : validBytes h1 s) : validBytes h2 s := by
  cases s with
  | none => trivial
  | some s =>
    refine ⟨lt_of_lt_of_le hv.1 hx.1, ?_⟩
    rw [hx.2 s.addr hv.1]
    exact hv.2

theorem writeAt_zero_full (zeros data : List Byte) (hl : zeros.length = data.length) :
    writeAt zeros 0 data = data := by
  unfold writeAt
  simp [List.drop_eq_nil_of_le, hl]

/-- What `make` followed by `copy` from a valid source leaves behind. -/
theorem make_copy_spec (h : Heap) (src : ByteSlice) (hv : validBytes h src) :
    (h.make (goLen src)).1 = some ⟨h.next, 0, goLen src⟩ ∧
    ((h.make (goLen src)).2.copy (h.make (goLen src)).1 src).next = h.next + 1 ∧
    ((h.make (goLen src)).2.copy (h.make (goLen src)).1 src).arrays =
      Function.update h.arrays h.next (h.read src) := by
  refine ⟨by simp [Heap.make, Heap.alloc], by simp [Heap.make, Heap.alloc, Heap.copy], ?_⟩
  cases src with
  | none =>
    simp [Heap.make, Heap.alloc, Heap.copy, goLen, Heap.read, writeAt]
  | some s =>
    have hne : s.addr ≠ h.next := Nat.ne_of_lt hv.1
    have hlen := length_read h s hv.2
    have hread : ∀ z : List Byte,
        Heap.read ⟨Function.update h.arrays h.next z, h.next + 1⟩ (some s) = h.read (some s) :=
      fun z => read_congr h _ s (by simp [Function.update_noteq hne])
    simp only [Heap.make, Heap.alloc, Heap.copy, goLen, List.length_replicate, hread,
      Function.update_same, Function.update_idem]
    rw [List.take_of_length_le (by omega), writeAt_zero_full _ _ (by simp [hlen])]

theorem make_copy_extends (h : Heap) (src : ByteSlice) (hv : validBytes h src) :
    h.Extends ((h.make (goLen src)).2.copy (h.make (goLen src)).1 src) := by
  obtain ⟨_, h2, h3⟩ := make_copy_spec h src hv
  refine ⟨by omega, fun a ha => ?_⟩
  rw [h3, Function.update_noteq (Nat.ne_of_lt ha)]

theorem length_read_bytes (h : Heap) (src : ByteSlice) (hv : validBytes h src) :
    (h.read src).length = goLen src := by
  cases src with
  | none => rfl
  | some s => exact length_read h s hv.2

theorem make_copy_read (h : Heap) (src : ByteSlice) (hv : validBytes h src) :
    ((h.make (goLen src)).2.copy (h.make (goLen src)).1 src).read (h.make (goLen src)).1 =
      h.read src := by
  obtain ⟨h1, _, h3⟩ := make_copy_spec h src hv
  have hlen := length_read_bytes h src hv
  generalize (h.make (goLen src)).2.copy (h.make (goLen src)).1 src = H at h3 ⊢
  generalize h.read src = data at h3 hlen ⊢
  rw [h1]
  simp only [Heap.read, h3, Function.update_same, List.drop_zero]
  rw [List.take_of_length_le (by omega)]

theorem make_copy_valid (h : Heap) (src : ByteSlice) (hv : validBytes h src) :
    validBytes ((h.make (goLen src)).2.copy (h.make (goLen src)).1 src)
      (h.make (goLen src)).1 := by
  obtain ⟨h1, h2, h3⟩ := make_copy_spec h src hv
  have hlen := length_read_bytes h src hv
  generalize (h.make (goLen src)).2.copy (h.make (goLen src)).1 src = H at h2 h3 ⊢
  rw [h1]
  refine ⟨by simp [h2], ?_⟩
  simp only [h3, Function.update_same]
  omega

namespace smtp

theorem foldl_append_singleton {α : Type} (l init : List α) :
    l.foldl (fun acc a => acc ++ [a]) init = init ++ l := by
  induction l generalizing init with
  | nil => simp
  | cons a rest ih => simp [ih]

theorem appendAttachment_eq (acc : List JweAttachment) (h : Heap) (ma : Attachment) :
    appendAttachment (acc, h) ma =
      (acc ++ [{ Filename := ma.Name, ContentType := ma.ContentType, Header := [],
                 Content := (h.make (goLen ma.Body)).1 }],
        (h.make (goLen ma.Body)).2.copy (h.make (goLen ma.Body)).1 ma.Body) := rfl

theorem foldl_appendAttachment (l : List Attachment) (h0 : Heap)
    (hl : ∀ a ∈ l, validBytes h0 a.Body) (acc : List JweAttachment) (h1 : Heap)
    (hx : h0.Extends h1) (hacc : ∀ a ∈ acc, validBytes h1 a.Content) :
    h1.Extends (l.foldl appendAttachment (acc, h1)).2 ∧
    (∀ a ∈ (l.foldl appendAttachment (acc, h1)).1,
      validBytes (l.foldl appendAttachment (acc, h1)).2 a.Content) ∧
    (l.foldl appendAttachment (acc, h1)).1.map
        (JweAttachment.content (l.foldl appendAttachment (acc, h1)).2) =
      acc.map (JweAttachment.content h1) ++ l.map (Attachment.content h0) := by
  induction l generalizing acc h1 with
  | nil => exact ⟨extends_refl _, hacc, by simp⟩
  | cons ma rest ih =>
    have hma : validBytes h1 ma.Body :=
      valid_of_extends hx _ (hl ma (List.mem_cons_self _ _))
    have hx12 := make_copy_extends h1 ma.Body hma
    have hrd := make_copy_read h1 ma.Body hma
    have hvl := make_copy_valid h1 ma.Body hma
    rw [List.foldl_cons, appendAttachment_eq]
    generalize (h1.make (goLen ma.Body)).2.copy (h1.make (goLen ma.Body)).1 ma.Body = h2
      at hx12 hrd hvl ⊢
    generalize (h1.make (goLen ma.Body)).1 = p at hrd hvl ⊢
    have hacc2 : ∀ a ∈ acc ++ [JweAttachment.mk ma.Name ma.ContentType [] p],
        validBytes h2 a.Content := by
      intro a ha
      rcases List.mem_append.1 ha with ha | ha
      · exact valid_of_extends hx12 _ (hacc a ha)
      · simp only [List.mem_singleton] at ha
        subst ha
        exact hvl
    obtain ⟨i1, i2, i3⟩ := ih (fun a ha => hl a (List.mem_cons_of_mem _ ha)) _ h2
      (extends_trans hx hx12) hacc2
    refine ⟨extends_trans hx12 i1, i2, ?_⟩
    rw [i3, List.map_append, List.map_cons, List.map_nil, List.map_cons, List.append_assoc]
    congr 1
    · apply List.map_congr_left
      intro a ha
      simp only [JweAttachment.content]
      rw [read_of_extends hx12 _ (hacc a ha)]
    · simp only [List.singleton_append, JweAttachment.content, Attachment.content, hrd]
      rw [read_of_extends hx _ (hl ma (List.mem_cons_self _ _))]

theorem attachments_tail (h h2 : Heap) (x : h.Extends h2) (pre atts : List Attachment)
    (hatts : ∀ a ∈ atts, validBytes h a.Body) (acc : List JweAttachment)
    (hacc : ∀ a ∈ acc, validBytes h2 a.Content)
    (hmap : acc.map (JweAttachment.content h2) = pre.map (Attachment.content h)) :
    (atts.foldl appendAttachment (acc, h2)).1.map
        (JweAttachment.content (atts.foldl appendAttachment (acc, h2)).2) =
      (pre ++ atts).map (Attachment.content h) ∧
    (atts.foldl appendAttachment (acc, h2)).1.length = pre.length + atts.length ∧
    h2.Extends (atts.foldl appendAttachment (acc, h2)).2 ∧
    (∀ a ∈ (atts.foldl appendAttachment (acc, h2)).1,
      validBytes (atts.foldl appendAttachment (acc, h2)).2 a.Content) := by
  obtain ⟨i1, i2, i3⟩ := foldl_appendAttachment atts h hatts acc h2 x hacc
  have hm : (atts.foldl appendAttachment (acc, h2)).1.map
        (JweAttachment.content (atts.foldl appendAttachment (acc, h2)).2) =
      (pre ++ atts).map (Attachment.content h) := by
    rw [i3, hmap, List.map_append]
  refine ⟨hm, ?_, i1, i2⟩
  have := congrArg List.length hm
  simpa using this

/-- C5: for every message whose byte slices are valid in the heap, the email
built by `buildMessage` has the From, Subject, To, Cc and Bcc of the message,
verbatim and in order, and its attachment list is the inline attachments of the
HTML body in their order (none without an HTML body) followed by the regular
attachments in their order, each with the same name, content type and body
bytes; its length is the number of inlines plus the number of regular
attachments.  The text and HTML parts hold the bytes of the plain and HTML
bodies, and nothing the message holds is changed. -/
theorem buildMessage_copies_message (msg : Message) (h : Heap) (hv : msg.Valid h) :
    (buildMessage msg h).1.From = msg.From ∧
    (buildMessage msg h).1.Subject = msg.Subject ∧
    (buildMessage msg h).1.To = msg.To ∧
    (buildMessage msg h).1.Cc = msg.Cc ∧
    (buildMessage msg h).1.Bcc = msg.Bcc ∧
    (buildMessage msg h).1.Attachments.map (JweAttachment.content (buildMessage msg h).2) =
      (msg.inlines ++ msg.Attachments).map (Attachment.content h) ∧
    (buildMessage msg h).1.Attachments.length = msg.inlines.length + msg.Attachments.length ∧
    (buildMessage msg h).2.read (buildMessage msg h).1.Text = h.read msg.Plain ∧
    (buildMessage msg h).2.read (buildMessage msg h).1.HTML = h.read msg.htmlBody ∧
    h.Extends (buildMessage msg h).2 := by
  obtain ⟨hplain, hhtml, hatts⟩ := hv
  cases hH : msg.Html with
  | none =>
    have hin : msg.inlines = [] := by simp [Message.inlines, hH]
    have hb : msg.htmlBody = none := by simp [Message.htmlBody, hH]
    cases hP : msg.Plain with
    | none =>
      obtain ⟨t1, t2, t3, _⟩ := attachments_tail h h (extends_refl h) [] msg.Attachments hatts []
        (by simp) rfl
      simp only [buildMessage, hP, hH, foldl_append_singleton, hin, hb]
      exact ⟨trivial, trivial, by simp, by simp, by simp, t1, by simpa using t2, rfl, rfl, t3⟩
    | some plain =>
      rw [hP] at hplain
      have x1 := make_copy_extends h _ hplain
      have v1 := make_copy_valid h _ hplain
      have r1 := make_copy_read h _ hplain
      simp only [buildMessage, hP, hH, foldl_append_singleton, hin, hb]
      generalize (h.make (goLen (some plain))).2.copy (h.make (goLen (some plain))).1
        (some plain) = h1 at x1 v1 r1 ⊢
      generalize (h.make (goLen (some plain))).1 = t at v1 r1 ⊢
      obtain ⟨t1, t2, t3, _⟩ := attachments_tail h h1 x1 [] msg.Attachments hatts []
        (by simp) rfl
      refine ⟨trivial, trivial, by simp, by simp, by simp, t1, by simpa using t2, ?_, rfl,
        extends_trans x1 t3⟩
      rw [read_of_extends t3 _ v1, r1]
  | some body =>
    obtain ⟨hbody, hinl⟩ := hhtml body hH
    have hin : msg.inlines = body.Inlines := by simp [Message.inlines, hH]
    have hb : msg.htmlBody = body.Body := by simp [Message.htmlBody, hH]
    cases hP : msg.Plain with
    | none =>
      have x2 := make_copy_extends h _ hbody
      have v2 := make_copy_valid h _ hbody
      have r2 := make_copy_read h _ hbody
      simp only [buildMessage, hP, hH, foldl_append_singleton, hin, hb]
      generalize (h.make (goLen body.Body)).2.copy (h.make (goLen body.Body)).1 body.Body = h2
        at x2 v2 r2 ⊢
      generalize (h.make (goLen body.Body)).1 = u at v2 r2 ⊢
      obtain ⟨s1, _, s3, s4⟩ := attachments_tail h h2 x2 [] body.Inlines hinl [] (by simp) rfl
      obtain ⟨t1, t2, t3, _⟩ := attachments_tail h _ (extends_trans x2 s3) body.Inlines
        msg.Attachments hatts _ s4 (by simpa using s1)
      refine ⟨trivial, trivial, by simp, by simp, by simp, t1, t2, rfl, ?_,
        extends_trans x2 (extends_trans s3 t3)⟩
      rw [read_of_extends (extends_trans s3 t3) _ v2, r2]
    | some plain =>
      rw [hP] at hplain
      have x1 := make_copy_extends h _ hplain
      have v1 := make_copy_valid h _ hplain
      have r1 := make_copy_read h _ hplain
      simp only [buildMessage, hP, hH, foldl_append_singleton, hin, hb]
      generalize (h.make (goLen (some plain))).2.copy (h.make (goLen (some plain))).1
        (some plain) = h1 at x1 v1 r1 ⊢
      generalize (h.make (goLen (some plain))).1 = t at v1 r1 ⊢
      have hbody1 := valid_of_extends x1 _ hbody
      have x2 := make_copy_extends h1 _ hbody1
      have v2 := make_copy_valid h1 _ hbody1
      have r2 := make_copy_read h1 _ hbody1
      generalize (h1.make (goLen body.Body)).2.copy (h1.make (goLen body.Body)).1 body.Body = h2
        at x2 v2 r2 ⊢
      generalize (h1.make (goLen body.Body)).1 = u at v2 r2 ⊢
      obtain ⟨s1, _, s3, s4⟩ := attachments_tail h h2 (extends_trans x1 x2) [] body.Inlines hinl
        [] (by simp) rfl
      obtain ⟨t1, t2, t3, _⟩ := attachments_tail h _ (extends_trans (extends_trans x1 x2) s3)
        body.Inlines msg.Attachments hatts _ s4 (by simpa using s1)
      refine ⟨trivial, trivial, by simp, by simp, by simp, t1, t2, ?_, ?_,
        extends_trans x1 (extends_trans x2 (extends_trans s3 t3))⟩
      · rw [read_of_extends (extends_trans x2 (extends_trans s3 t3)) _ v1, r1]
      · rw [read_of_extends (extends_trans s3 t3) _ v2, r2, read_of_extends x1 _ hbody]

end smtp

/-! ### bytes.Buffer -/

theorem Write_fields (b : Buffer) (c : List Byte) (h : Heap) :
    (b.Write c h).1.buf.addr = b.buf.addr ∧ (b.Write c h).1.buf.off = b.buf.off ∧
    (b.Write c h).1.buf.len = b.buf.len + c.length ∧ (b.Write c h).1.off = b.off ∧
    (b.Write c h).2.next = h.next ∧
    (∀ a, a ≠ b.buf.addr → (b.Write c h).2.arrays a = h.arrays a) := by
  refine ⟨rfl, rfl, rfl, rfl, rfl, fun a ha => ?_⟩
  simp [Buffer.Write, Function.update_noteq ha]

theorem Write_appends (b : Buffer) (c : List Byte) (h : Heap) (hb : b.InBounds h) :
    (b.Write c h).2.read (b.Write c h).1.Bytes = h.read b.Bytes ++ c ∧
    (b.Write c h).1.InBounds (b.Write c h).2 := by
  obtain ⟨h1, h2⟩ := hb
  have hlen : (List.take (b.buf.off + b.buf.len) (h.arrays b.buf.addr)).length
      = b.buf.off + b.buf.len := by
    simp [List.length_take, h1]
  refine ⟨?_, ?_, ?_⟩
  · simp only [Buffer.Write, Buffer.Bytes, Heap.read, Function.update_same, writeAt]
    rw [List.append_assoc, List.drop_append_of_le_length (by omega),
      List.take_append_eq_append_take, List.take_of_length_le, List.drop_take]
    · have hX : (List.take (b.buf.off + b.buf.len - (b.buf.off + b.off))
          (List.drop (b.buf.off + b.off) (h.arrays b.buf.addr))).length = b.buf.len - b.off := by
        simp only [List.length_take, List.length_drop]
        omega
      have e1 : b.buf.len + c.length - b.off - (b.buf.len - b.off) = c.length := by omega
      have e2 : b.buf.off + b.buf.len - (b.buf.off + b.off) = b.buf.len - b.off := by omega
      rw [hX, e1, e2, List.take_append_of_le_length (le_refl _), List.take_length]
    · simp only [List.length_drop, hlen]
      omega
  · simp only [Buffer.Write, Function.update_same, writeAt, List.length_append, hlen]
    omega
  · simp only [Buffer.Write]
    omega

theorem ReadFrom_fold (chunks : List (List Byte)) (b : Buffer) (h : Heap) (hb : b.InBounds h) :
    (chunks.foldl (fun (st : Buffer × Heap) c => st.1.Write c st.2) (b, h)).2.read
        (chunks.foldl (fun (st : Buffer × Heap) c => st.1.Write c st.2) (b, h)).1.Bytes
      = h.read b.Bytes ++ chunks.flatten ∧
    (chunks.foldl (fun (st : Buffer × Heap) c => st.1.Write c st.2) (b, h)).1.InBounds
      (chunks.foldl (fun (st : Buffer × Heap) c => st.1.Write c st.2) (b, h)).2 ∧
    (chunks.foldl (fun (st : Buffer × Heap) c => st.1.Write c st.2) (b, h)).1.buf.addr
      = b.buf.addr ∧
    (chunks.foldl (fun (st : Buffer × Heap) c => st.1.Write c st.2) (b, h)).1.buf.off
      = b.buf.off ∧
    (chunks.foldl (fun (st : Buffer × Heap) c => st.1.Write c st.2) (b, h)).1.off = b.off ∧
    (chunks.foldl (fun (st : Buffer × Heap) c => st.1.Write c st.2) (b, h)).2.next = h.next ∧
    (∀ a, a ≠ b.buf.addr →
      (chunks.foldl (fun (st : Buffer × Heap) c => st.1.Write c st.2) (b, h)).2.arrays a
        = h.arrays a) := by
  induction chunks generalizing b h with
  | nil => simp [hb]
  | cons c rest ih =>
    obtain ⟨w1, w2⟩ := Write_appends b c h hb
    obtain ⟨f1, f2, _, f4, f5, f6⟩ := Write_fields b c h
    obtain ⟨i1, i2, i3, i4, i5, i6, i7⟩ := ih (b.Write c h).1 (b.Write c h).2 w2
    simp only [List.foldl_cons, List.flatten_cons]
    refine ⟨?_, i2, by rw [i3, f1], by rw [i4, f2], by rw [i5, f4], by rw [i6, f5], ?_⟩
    · rw [i1, w1, List.append_assoc]
    · intro a ha
      rw [i7 a (by rw [f1]; exact ha), f6 a ha]

/-- The contract of `ReadFrom` on a buffer whose contents lie within its array. -/
theorem ReadFrom_spec (b : Buffer) (s : ByteStream) (h : Heap) (hb : b.InBounds h) :
    (b.ReadFrom s h).2.1 = s.err ∧
    (b.ReadFrom s h).2.2.read (b.ReadFrom s h).1.Bytes = h.read b.Bytes ++ s.chunks.flatten ∧
    (b.ReadFrom s h).1.InBounds (b.ReadFrom s h).2.2 ∧
    (b.ReadFrom s h).1.buf.addr = b.buf.addr ∧
    (b.ReadFrom s h).1.buf.off = b.buf.off ∧
    (b.ReadFrom s h).1.off = b.off ∧
    (b.ReadFrom s h).2.2.next = h.next ∧
    (∀ a, a ≠ b.buf.addr → (b.ReadFrom s h).2.2.arrays a = h.arrays a) := by
  obtain ⟨i1, i2, i3, i4, i5, i6, i7⟩ := ReadFrom_fold s.chunks b h hb
  exact ⟨rfl, i1, i2, i3, i4, i5, i6, i7⟩

/-- `ReadFrom` writes to the backing array of its buffer only, whatever the buffer. -/
theorem ReadFrom_other (b : Buffer) (s : ByteStream) (h : Heap) (a : Nat)
    (ha : a ≠ b.buf.addr) : (b.ReadFrom s h).2.2.arrays a = h.arrays a := by
  have key : ∀ (chunks : List (List Byte)) (b : Buffer) (h : Heap), a ≠ b.buf.addr →
      (chunks.foldl (fun (st : Buffer × Heap) c => st.1.Write c st.2) (b, h)).2.arrays a
        = h.arrays a := by
    intro chunks
    induction chunks with
    | nil => intro b h _; rfl
    | cons c rest ih =>
      intro b h hab
      rw [List.foldl_cons, ih (b.Write c h).1 (b.Write c h).2 hab]
      exact (Write_fields b c h).2.2.2.2.2 a hab
  exact key s.chunks b h ha

/-! ### The pool -/

theorem onceDo_spec (w : World) :
    (bbpool.onceDo w).heap = w.heap ∧ (bbpool.onceDo w).once = true ∧
    (∀ b ∈ (bbpool.onceDo w).pool, b ∈ w.pool) := by
  unfold bbpool.onceDo bbpool.initPool
  cases hw : w.once <;> simp [hw]

theorem poolGet_spec (w : World) :
    (bbpool.poolGet w).2.heap = w.heap ∧ (∀ b ∈ (bbpool.poolGet w).2.pool, b ∈ w.pool) ∧
    (∀ b, (bbpool.poolGet w).1 = some b → b ∈ w.pool) := by
  unfold bbpool.poolGet
  cases w.pick w.pool with
  | none => exact ⟨rfl, fun _ hb => hb, fun _ hb => by cases hb⟩
  | some i =>
    simp only
    cases hi : w.pool[i]? with
    | none => exact ⟨rfl, fun _ hb => hb, fun _ hb => by cases hb⟩
    | some b0 =>
      refine ⟨rfl, fun b hb => List.mem_of_mem_eraseIdx hb, fun b hb => ?_⟩
      simp only [Option.some.injEq] at hb
      subst hb
      exact List.getElem?_mem hi

theorem Get_spec (w : World) (hw : PoolOK w) :
    (bbpool.Get w).1.off = 0 ∧ (bbpool.Get w).1.buf.off = 0 ∧ (bbpool.Get w).1.buf.len = 0 ∧
    (bbpool.Get w).1.buf.addr < (bbpool.Get w).2.heap.next ∧
    w.heap.next ≤ (bbpool.Get w).2.heap.next ∧
    (∀ a, a < w.heap.next → (bbpool.Get w).2.heap.arrays a = w.heap.arrays a) ∧
    (∀ b ∈ (bbpool.Get w).2.pool, b ∈ w.pool) ∧
    ((∃ b0 ∈ w.pool, b0.buf.addr = (bbpool.Get w).1.buf.addr) ∨
      w.heap.next ≤ (bbpool.Get w).1.buf.addr) := by
  obtain ⟨o1, _, o3⟩ := onceDo_spec w
  obtain ⟨p1, p2, p3⟩ := poolGet_spec (bbpool.onceDo w)
  unfold bbpool.Get
  rcases hg : bbpool.poolGet (bbpool.onceDo w) with ⟨ob, w1⟩
  rw [hg] at p1 p2 p3
  simp only at p1 p2 p3
  cases ob with
  | none =>
    simp only [Heap.alloc, List.length_nil, p1, o1]
    refine ⟨trivial, trivial, trivial, by simp, by simp, ?_, fun b hb => o3 b (p2 b hb),
      Or.inr (le_refl _)⟩
    intro a ha
    simp [Function.update_noteq (Nat.ne_of_lt ha)]
  | some b =>
    have hb : b ∈ w.pool := o3 b (p3 b rfl)
    obtain ⟨b1, b2, b3, b4⟩ := hw b hb
    simp only [p1, o1]
    exact ⟨b1, b2, b3, b4, le_refl _, by simp, fun b' hb' => o3 b' (p2 b' hb'),
      Or.inl ⟨b, hb, rfl⟩⟩

theorem Put_spec (buf : Buffer) (w : World) :
    (bbpool.Put buf w).heap = w.heap ∧
    (∀ b ∈ (bbpool.Put buf w).pool, b = buf.Reset ∨ b ∈ w.pool) ∧
    buf.Reset ∈ (bbpool.Put buf w).pool := by
  obtain ⟨o1, _, o3⟩ := onceDo_spec w
  unfold bbpool.Put
  simp only [o1, List.mem_cons, true_or, and_true, true_and]
  intro b hb
  rcases hb with hb | hb
  · exact Or.inl hb
  · exact Or.inr (o3 b hb)

theorem protected_of_frame {w w2 : World} (hf : Frame w w2) (a : Nat) (ha : Protected w a) :
    Protected w2 a := by
  refine ⟨lt_of_lt_of_le ha.1 hf.1, fun b hb => ?_⟩
  rcases hf.2.1 b hb with ⟨b0, hb0, e⟩ | hge
  · rw [← e]
    exact ha.2 b0 hb0
  · have := ha.1
    omega

theorem frame_refl (w : World) : Frame w w :=
  ⟨le_refl _, fun b hb => Or.inl ⟨b, hb, rfl⟩, fun _ _ => rfl⟩

theorem frame_trans {w1 w2 w3 : World} (h12 : Frame w1 w2) (h23 : Frame w2 w3) :
    Frame w1 w3 := by
  refine ⟨le_trans h12.1 h23.1, fun b hb => ?_, fun a ha => ?_⟩
  · rcases h23.2.1 b hb with ⟨b0, hb0, e⟩ | hge
    · rcases h12.2.1 b0 hb0 with ⟨b1, hb1, e1⟩ | hge
      · exact Or.inl ⟨b1, hb1, by rw [e1, e]⟩
      · exact Or.inr (by rw [← e]; exact hge)
    · exact Or.inr (le_trans h12.1 hge)
  · rw [h23.2.2 a (protected_of_frame h12 a ha), h12.2.2 a ha]

/-- Releasing a buffer that came from the pool of `w`, or was allocated since, keeps the frame. -/
theorem frame_release {w w1 : World} (hf : Frame w w1) (hp : PoolOK w1) (b : Option Buffer)
    (hb : ∀ b1, b = some b1 → b1.buf.off = 0 ∧ b1.buf.addr < w1.heap.next ∧
      ((∃ b0 ∈ w.pool, b0.buf.addr = b1.buf.addr) ∨ w.heap.next ≤ b1.buf.addr)) :
    Frame w (release b w1) ∧ PoolOK (release b w1) ∧ (release b w1).heap = w1.heap := by
  cases b with
  | none => exact ⟨hf, hp, rfl⟩
  | some b1 =>
    obtain ⟨hb1, hb2, hb3⟩ := hb b1 rfl
    obtain ⟨p1, p2, _⟩ := Put_spec b1 w1
    simp only [release]
    refine ⟨⟨by rw [p1]; exact hf.1, fun b hbm => ?_, fun a ha => by rw [p1]; exact hf.2.2 a ha⟩,
      fun b hbm => ?_, p1⟩
    · rcases p2 b hbm with e | hm
      · subst e
        exact hb3
      · exact hf.2.1 b hm
    · rcases p2 b hbm with e | hm
      · subst e
        rw [p1]
        exact ⟨rfl, hb1, rfl, hb2⟩
      · rw [p1]
        exact hp b hm

theorem validBytes_Bytes (b : Buffer) (h : Heap) (ha : b.buf.addr < h.next)
    (hb : b.InBounds h) : validBytes h b.Bytes := by
  obtain ⟨h1, h2⟩ := hb
  refine ⟨ha, ?_⟩
  simp only [Buffer.Bytes]
  omega

theorem poolOK_of_grow {w w2 : World} (hw : PoolOK w) (hn : w.heap.next ≤ w2.heap.next)
    (hp : ∀ b ∈ w2.pool, b ∈ w.pool) : PoolOK w2 := by
  intro b hb
  obtain ⟨b1, b2, b3, b4⟩ := hw b (hp b hb)
  exact ⟨b1, b2, b3, lt_of_lt_of_le b4 hn⟩

/-- What the shared ingest statements establish. -/
theorem ingest_spec (r : Reader) (w : World) (hw : PoolOK w) :
    PoolOK (ingest r w).2.2.2 ∧ Frame w (ingest r w).2.2.2 ∧
    (∀ b1, (ingest r w).2.2.1 = some b1 →
      b1.buf.off = 0 ∧ b1.buf.addr < (ingest r w).2.2.2.heap.next ∧
      ((∃ b0 ∈ w.pool, b0.buf.addr = b1.buf.addr) ∨ w.heap.next ≤ b1.buf.addr)) ∧
    ((ingest r w).1 = match r with
      | .buffer _ => none
      | .stream s => s.err) ∧
    ((ingest r w).1 ≠ none → (ingest r w).2.1 = none) ∧
    (r.Valid w.heap → (ingest r w).1 = none →
      ∃ s : Slice, (ingest r w).2.1 = some s ∧
        (ingest r w).2.2.2.heap.read (some s) = r.unread w.heap ∧
        Protected (ingest r w).2.2.2 s.addr ∧ w.heap.next ≤ s.addr ∧
        s.Valid (ingest r w).2.2.2.heap ∧
        (∀ b1, (ingest r w).2.2.1 = some b1 → b1.buf.addr < s.addr)) := by
  cases r with
  | buffer b =>
    have hgl : goLen b.Bytes = b.Len := rfl
    have e : ingest (.buffer b) w = (none, (w.heap.make (goLen b.Bytes)).1, none,
        w.withHeap
          ((w.heap.make (goLen b.Bytes)).2.copy (w.heap.make (goLen b.Bytes)).1 b.Bytes)) := rfl
    simp only [World.withHeap] at e
    rw [e]
    have hnext : ((w.heap.make (goLen b.Bytes)).2.copy
        (w.heap.make (goLen b.Bytes)).1 b.Bytes).next = w.heap.next + 1 := by
      simp [Heap.make, Heap.alloc, Heap.copy]
    have harr : ∀ a, a < w.heap.next → ((w.heap.make (goLen b.Bytes)).2.copy
        (w.heap.make (goLen b.Bytes)).1 b.Bytes).arrays a = w.heap.arrays a := by
      intro a ha
      simp [Heap.make, Heap.alloc, Heap.copy, Function.update_noteq (Nat.ne_of_lt ha)]
    refine ⟨?_, ⟨?_, ?_, ?_⟩, ?_, rfl, ?_, ?_⟩
    · exact poolOK_of_grow hw (by simp only [hnext]; omega) (fun _ hb => hb)
    · simp only [hnext]; omega
    · intro b0 hb0
      exact Or.inl ⟨b0, hb0, rfl⟩
    · intro a ha
      exact harr a ha.1
    · intro b1 hb1
      cases hb1
    · intro hne
      exact absurd rfl hne
    · intro hv _
      have hvb := validBytes_Bytes b w.heap hv.1 hv.2
      obtain ⟨m1, m2, m3⟩ := make_copy_spec w.heap b.Bytes hvb
      have hrd := make_copy_read w.heap b.Bytes hvb
      have hvl := make_copy_valid w.heap b.Bytes hvb
      simp only at hrd hvl ⊢
      generalize (w.heap.make (goLen b.Bytes)).2.copy (w.heap.make (goLen b.Bytes)).1 b.Bytes
        = h2 at m2 m3 hrd hvl ⊢
      rw [m1] at hrd hvl ⊢
      refine ⟨_, rfl, hrd, ⟨by simp [m2], fun b0 hb0 => ?_⟩, le_refl _, hvl, ?_⟩
      · exact Nat.ne_of_lt (hw b0 hb0).2.2.2
      · intro b1 hb1
        cases hb1
  | stream s =>
    obtain ⟨g1, g2, g3, g4, g5, g6, g7, g8⟩ := Get_spec w hw
    have hib : (bbpool.Get w).1.InBounds (bbpool.Get w).2.heap := by
      refine ⟨?_, ?_⟩
      · rw [g2, g3]; exact Nat.zero_le _
      · rw [g1]; exact Nat.zero_le _
    obtain ⟨r1, r2, r3, r4, r5, r6, r7, r8⟩ :=
      ReadFrom_spec (bbpool.Get w).1 s (bbpool.Get w).2.heap hib
    have hempty : (bbpool.Get w).2.heap.read (bbpool.Get w).1.Bytes = [] := by
      simp [Heap.read, Buffer.Bytes, g3]
    rw [hempty, List.nil_append] at r2
    have e : ingest (.stream s) w =
        match (bbpool.Get w).1.ReadFrom s (bbpool.Get w).2.heap with
        | (buf1, some err, h1) =>
          (some err, none, some buf1, (bbpool.Get w).2.withHeap h1)
        | (buf1, none, h1) =>
          (none, (h1.make (goLen buf1.Bytes)).1, some buf1,
            (bbpool.Get w).2.withHeap ((h1.make (goLen buf1.Bytes)).2.copy
              (h1.make (goLen buf1.Bytes)).1 buf1.Bytes)) := rfl
    simp only [World.withHeap] at e
    rw [e]
    rcases hrf : (bbpool.Get w).1.ReadFrom s (bbpool.Get w).2.heap with ⟨b1, err, h1⟩
    rw [hrf] at r1 r2 r3 r4 r5 r6 r7 r8
    simp only at r1 r2 r3 r4 r5 r6 r7 r8
    generalize (bbpool.Get w).1 = buf at g1 g2 g3 g4 g8 r4 r5 r6 r8
    generalize (bbpool.Get w).2 = w1 at g4 g5 g6 g7 r7 r8 ⊢
    have hsrc : ∀ a, Protected w a → a ≠ buf.buf.addr := by
      intro a ha hab
      rcases g8 with ⟨b0, hb0, e0⟩ | hge
      · exact ha.2 b0 hb0 (by rw [e0, hab])
      · have := ha.1
        omega
    have hb1 : b1.buf.off = 0 ∧ b1.buf.addr < h1.next ∧
        ((∃ b0 ∈ w.pool, b0.buf.addr = b1.buf.addr) ∨ w.heap.next ≤ b1.buf.addr) := by
      refine ⟨by rw [r5, g2], by rw [r4, r7]; exact g4, ?_⟩
      rw [r4]
      exact g8
    cases err with
    | some er =>
      simp only
      refine ⟨?_, ⟨?_, ?_, ?_⟩, ?_, r1, ?_, ?_⟩
      · exact poolOK_of_grow hw (by simp only [r7]; exact g5) g7
      · simp only [r7]; exact g5
      · intro b0 hb0
        exact Or.inl ⟨b0, g7 b0 hb0, rfl⟩
      · intro a ha
        simp only
        rw [r8 a (hsrc a ha), g6 a ha.1]
      · intro b2 hb2
        simp only [Option.some.injEq] at hb2
        subst hb2
        exact hb1
      · intro _
        trivial
      · intro _ hne
        cases hne
    | none =>
      have hvb : validBytes h1 b1.Bytes := validBytes_Bytes b1 h1 hb1.2.1 r3
      obtain ⟨m1, m2, m3⟩ := make_copy_spec h1 b1.Bytes hvb
      have hrd := make_copy_read h1 b1.Bytes hvb
      have hvl := make_copy_valid h1 b1.Bytes hvb
      simp only
      generalize (h1.make (goLen b1.Bytes)).2.copy (h1.make (goLen b1.Bytes)).1 b1.Bytes
        = h3 at m2 m3 hrd hvl ⊢
      rw [m1] at hrd hvl ⊢
      have hle : w.heap.next ≤ h1.next := by rw [r7]; exact g5
      refine ⟨?_, ⟨?_, ?_, ?_⟩, ?_, r1, ?_, ?_⟩
      · exact poolOK_of_grow hw (by simp only [m2]; omega) g7
      · simp only [m2]; omega
      · intro b0 hb0
        exact Or.inl ⟨b0, g7 b0 hb0, rfl⟩
      · intro a ha
        simp only [m3]
        have := ha.1
        rw [Function.update_noteq (by omega), r8 a (hsrc a ha), g6 a ha.1]
      · intro b2 hb2
        simp only [Option.some.injEq] at hb2
        subst hb2
        exact ⟨hb1.1, by simp only [m2]; omega, hb1.2.2⟩
      · intro hne
        exact absurd rfl hne
      · intro _ _
        refine ⟨_, rfl, ?_, ⟨by simp [m2], fun b0 hb0 => ?_⟩, hle, hvl, ?_⟩
        · rw [hrd, r2]
          rfl
        · have := (hw b0 (g7 b0 hb0)).2.2.2
          simp only
          omega
        · intro b2 hb2
          simp only [Option.some.injEq] at hb2
          subst hb2
          exact hb1.2.1

/-! ### The three ingesting functions -/

theorem SetPlain_eq (m : Message) (r : Reader) (w : World) :
    m.SetPlain r w =
      match (ingest r w).1 with
      | some err => (some err, m, release (ingest r w).2.2.1 (ingest r w).2.2.2)
      | none => (none, { m with Plain := (ingest r w).2.1 },
          release (ingest r w).2.2.1 (ingest r w).2.2.2) := by
  cases r with
  | buffer b => rfl
  | stream s =>
    unfold Message.SetPlain ingest
    simp only
    rcases (bbpool.Get w).1.ReadFrom s (bbpool.Get w).2.heap with ⟨b1, _ | err, h1⟩ <;> rfl

theorem newAttachment_eq (name contentType : String) (r : Reader) (w : World) :
    newAttachment name contentType r w =
      match (ingest r w).1 with
      | some err => (.error err, release (ingest r w).2.2.1 (ingest r w).2.2.2)
      | none => (.ok { Name := name, ContentType := contentType, Body := (ingest r w).2.1 },
          release (ingest r w).2.2.1 (ingest r w).2.2.2) := by
  cases r with
  | buffer b => rfl
  | stream s =>
    unfold newAttachment ingest
    simp only
    rcases (bbpool.Get w).1.ReadFrom s (bbpool.Get w).2.heap with ⟨b1, _ | err, h1⟩ <;> rfl

theorem SetHtml_eq (m : Message) (r : Reader) (opts : List HtmlOpt) (w : World) :
    m.SetHtml r opts w =
      match (ingest r w).1 with
      | some err => (some err, m, release (ingest r w).2.2.1 (ingest r w).2.2.2)
      | none =>
        match rangeOpts opts { Body := (ingest r w).2.1, Inlines := [] } (ingest r w).2.2.2 with
        | (some err, _, w2) => (some err, m, release (ingest r w).2.2.1 w2)
        | (none, h, w2) => (none, { m with Html := some h }, release (ingest r w).2.2.1 w2) := by
  cases r with
  | buffer b =>
    unfold Message.SetHtml ingest
    simp only
    rcases rangeOpts opts _ _ with ⟨_ | err, h, w2⟩ <;> rfl
  | stream s =>
    unfold Message.SetHtml ingest
    simp only
    rcases (bbpool.Get w).1.ReadFrom s (bbpool.Get w).2.heap with ⟨b1, _ | err, h1⟩
    · simp only
      rcases rangeOpts opts _ _ with ⟨_ | err, h, w2⟩ <;> rfl
    · rfl

theorem snapshot_of_protected (w w2 : World) (r : Reader) (s : Slice) (data : List Byte)
    (hrd : w2.heap.read (some s) = data) (hp : Protected w2 s.addr)
    (hr : r.Valid w.heap) (hle : w.heap.next ≤ s.addr) : Snapshot w2 r (some s) data := by
  refine ⟨hrd, fun b hb st => ?_, fun b hb st => ?_⟩
  · rw [read_congr w2.heap _ s (ReadFrom_other b st w2.heap s.addr (fun e => hp.2 b hb e.symm)),
      hrd]
  · subst hb
    have hlt : b.buf.addr < w.heap.next := hr.1
    rw [read_congr w2.heap _ s (ReadFrom_other b st w2.heap s.addr (by omega)), hrd]

theorem release_heap (b : Option Buffer) (w : World) : (release b w).heap = w.heap := by
  cases b with
  | none => rfl
  | some b1 => exact (Put_spec b1 w).1

theorem snapshot_release (w w2 : World) (r : Reader) (s : Slice) (data : List Byte)
    (b : Option Buffer) (hrd : w2.heap.read (some s) = data) (hp : Protected w2 s.addr)
    (hb : ∀ b1, b = some b1 → b1.buf.addr < s.addr)
    (hr : r.Valid w.heap) (hle : w.heap.next ≤ s.addr) :
    Snapshot (release b w2) r (some s) data := by
  apply snapshot_of_protected w _ r s _ _ _ hr hle
  · rw [release_heap]
    exact hrd
  · refine ⟨by rw [release_heap]; exact hp.1, fun b0 hb0 => ?_⟩
    cases b with
    | none => exact hp.2 b0 hb0
    | some b1 =>
      rcases (Put_spec b1 _).2.1 b0 hb0 with e | hm
      · subst e
        exact Nat.ne_of_lt (hb b1 rfl)
      · exact hp.2 b0 hm

/-- The frame of ingesting followed by the release, whatever the source. -/
theorem ingest_release_frame (r : Reader) (w : World) (hw : PoolOK w) :
    PoolOK (release (ingest r w).2.2.1 (ingest r w).2.2.2) ∧
    Frame w (release (ingest r w).2.2.1 (ingest r w).2.2.2) ∧
    (r.readOK → (ingest r w).1 = none) := by
  obtain ⟨i1, i2, i3, i4, _, _⟩ := ingest_spec r w hw
  obtain ⟨f1, f2, _⟩ := frame_release i2 i1 (ingest r w).2.2.1 i3
  refine ⟨f2, f1, fun hok => ?_⟩
  rw [i4]
  cases r with
  | buffer b => rfl
  | stream s => exact hok

/-- What ingesting followed by the release establishes, for a source whose read succeeds. -/
theorem ingest_release_spec (r : Reader) (w : World) (hw : PoolOK w) (hv : r.Valid w.heap)
    (hok : r.readOK) :
    (ingest r w).1 = none ∧
    PoolOK (release (ingest r w).2.2.1 (ingest r w).2.2.2) ∧
    Frame w (release (ingest r w).2.2.1 (ingest r w).2.2.2) ∧
    ∃ s : Slice, (ingest r w).2.1 = some s ∧
      Snapshot (release (ingest r w).2.2.1 (ingest r w).2.2.2) r (some s) (r.unread w.heap) := by
  obtain ⟨_, _, _, _, _, i6⟩ := ingest_spec r w hw
  obtain ⟨f2, f1, f3⟩ := ingest_release_frame r w hw
  obtain ⟨s, s1, s2, s3, s4, _, s6⟩ := i6 hv (f3 hok)
  exact ⟨f3 hok, f2, f1, s, s1, snapshot_release w _ r s _ _ s2 s3 s6 hv s4⟩

theorem inlineCall_frame (c : InlineCall) (h : Html) (w : World) (hw : PoolOK w) :
    PoolOK (c.opt h w).2.2 ∧ Frame w (c.opt h w).2.2 ∧ (c.opt h w).2.1.Body = h.Body ∧
    (c.source.readOK → (c.opt h w).1 = none ∧
      ∃ a : Attachment, (c.opt h w).2.1.Inlines = h.Inlines ++ [a] ∧ a.Name = c.name ∧
        a.ContentType = c.contentType) := by
  obtain ⟨f2, f1, f3⟩ := ingest_release_frame c.source w hw
  have e : c.opt h w =
      match (ingest c.source w).1 with
      | some err => (some err, h, release (ingest c.source w).2.2.1 (ingest c.source w).2.2.2)
      | none => (none, { h with Inlines := h.Inlines ++
          [{ Name := c.name, ContentType := c.contentType, Body := (ingest c.source w).2.1 }] },
          release (ingest c.source w).2.2.1 (ingest c.source w).2.2.2) := by
    unfold InlineCall.opt Inline Html.Inline
    rw [newAttachment_eq]
    cases (ingest c.source w).1 <;> rfl
  rw [e]
  cases herr : (ingest c.source w).1 with
  | some err =>
    refine ⟨f2, f1, rfl, fun hok => ?_⟩
    rw [f3 hok] at herr
    cases herr
  | none => exact ⟨f2, f1, rfl, fun _ => ⟨rfl, _, rfl, rfl, rfl⟩⟩

theorem rangeOpts_inlineCalls (cs : List InlineCall) (h : Html) (w : World) (hw : PoolOK w)
    (hok : ∀ c ∈ cs, c.source.readOK) :
    (rangeOpts (cs.map InlineCall.opt) h w).1 = none ∧
    PoolOK (rangeOpts (cs.map InlineCall.opt) h w).2.2 ∧
    Frame w (rangeOpts (cs.map InlineCall.opt) h w).2.2 ∧
    (rangeOpts (cs.map InlineCall.opt) h w).2.1.Body = h.Body ∧
    (rangeOpts (cs.map InlineCall.opt) h w).2.1.Inlines.map (fun a => (a.Name, a.ContentType)) =
      h.Inlines.map (fun a => (a.Name, a.ContentType)) ++
        cs.map (fun c => (c.name, c.contentType)) := by
  induction cs generalizing h w with
  | nil => exact ⟨rfl, hw, frame_refl w, rfl, by simp [rangeOpts]⟩
  | cons c rest ih =>
    obtain ⟨c1, c2, c3, c4⟩ := inlineCall_frame c h w hw
    obtain ⟨c5, a, c6, c7, c8⟩ := c4 (hok c (List.mem_cons_self _ _))
    simp only [List.map_cons, rangeOpts]
    rcases hres : c.opt h w with ⟨e, h1, w1⟩
    rw [hres] at c1 c2 c3 c5 c6
    simp only at c1 c2 c3 c5 c6
    subst c5
    simp only
    obtain ⟨i1, i2, i3, i4, i5⟩ := ih h1 w1 c1 (fun c0 hc0 => hok c0 (List.mem_cons_of_mem _ hc0))
    refine ⟨i1, i2, frame_trans c2 i3, by rw [i4, c3], ?_⟩
    rw [i5, c6, List.map_append, List.append_assoc]
    simp [c7, c8]

theorem SetPlain_ok (m : Message) (r : Reader) (w : World) (hw : PoolOK w)
    (hv : r.Valid w.heap) (hok : r.readOK) :
    ∃ p : Slice,
      m.SetPlain r w = (none, { m with Plain := some p }, (m.SetPlain r w).2.2) ∧
      Snapshot (m.SetPlain r w).2.2 r (some p) (r.unread w.heap) ∧
      PoolOK (m.SetPlain r w).2.2 ∧ Frame w (m.SetPlain r w).2.2 := by
  obtain ⟨h1, h2, h3, s, h4, h5⟩ := ingest_release_spec r w hw hv hok
  have hE : m.SetPlain r w = (none, { m with Plain := some s },
      release (ingest r w).2.2.1 (ingest r w).2.2.2) := by
    rw [SetPlain_eq]
    simp only [h1, h4]
  rw [hE]
  exact ⟨s, rfl, h5, h2, h3⟩

theorem newAttachment_ok (name contentType : String) (r : Reader) (w : World) (hw : PoolOK w)
    (hv : r.Valid w.heap) (hok : r.readOK) :
    ∃ p : Slice,
      newAttachment name contentType r w =
        (.ok { Name := name, ContentType := contentType, Body := some p },
          (newAttachment name contentType r w).2) ∧
      Snapshot (newAttachment name contentType r w).2 r (some p) (r.unread w.heap) ∧
      PoolOK (newAttachment name contentType r w).2 ∧
      Frame w (newAttachment name contentType r w).2 := by
  obtain ⟨h1, h2, h3, s, h4, h5⟩ := ingest_release_spec r w hw hv hok
  have hE : newAttachment name contentType r w =
      (.ok { Name := name, ContentType := contentType, Body := some s },
        release (ingest r w).2.2.1 (ingest r w).2.2.2) := by
    rw [newAttachment_eq]
    simp only [h1, h4]
  rw [hE]
  exact ⟨s, rfl, h5, h2, h3⟩

theorem SetHtml_inlines_ok (m : Message) (r : Reader) (cs : List InlineCall) (w : World)
    (hw : PoolOK w) (hv : r.Valid w.heap) (hok : r.readOK)
    (hcs : ∀ c ∈ cs, c.source.readOK) :
    ∃ (p : Slice) (ins : List Attachment),
      m.SetHtml r (cs.map InlineCall.opt) w =
        (none, { m with Html := some { Body := some p, Inlines := ins } },
          (m.SetHtml r (cs.map InlineCall.opt) w).2.2) ∧
      ins.map (fun a => (a.Name, a.ContentType)) = cs.map (fun c => (c.name, c.contentType)) ∧
      Snapshot (m.SetHtml r (cs.map InlineCall.opt) w).2.2 r (some p) (r.unread w.heap) ∧
      PoolOK (m.SetHtml r (cs.map InlineCall.opt) w).2.2 ∧
      Frame w (m.SetHtml r (cs.map InlineCall.opt) w).2.2 := by
  obtain ⟨i1, i2, i3, _, _, i6⟩ := ingest_spec r w hw
  obtain ⟨_, _, f3⟩ := ingest_release_frame r w hw
  have hnone := f3 hok
  obtain ⟨s, s1, s2, s3, s4, _, s6⟩ := i6 hv hnone
  obtain ⟨o1, o2, o3, o4, o5⟩ := rangeOpts_inlineCalls cs { Body := some s, Inlines := [] }
    (ingest r w).2.2.2 i1 hcs
  rcases hres : rangeOpts (cs.map InlineCall.opt) { Body := some s, Inlines := [] }
    (ingest r w).2.2.2 with ⟨e, hfin, w2⟩
  rw [hres] at o1 o2 o3 o4 o5
  simp only at o1 o2 o3 o4 o5
  subst o1
  have hE : m.SetHtml r (cs.map InlineCall.opt) w =
      (none, { m with Html := some hfin }, release (ingest r w).2.2.1 w2) := by
    rw [SetHtml_eq]
    simp only [hnone, s1, hres]
  obtain ⟨g1, g2, _⟩ := frame_release (frame_trans i2 o3) o2 (ingest r w).2.2.1
    (fun b1 hb1 => ⟨(i3 b1 hb1).1, lt_of_lt_of_le (i3 b1 hb1).2.1 o3.1, (i3 b1 hb1).2.2⟩)
  have hp2 : Protected w2 s.addr := protected_of_frame o3 s.addr s3
  have hrd2 : w2.heap.read (some s) = r.unread w.heap := by
    rw [read_congr _ w2.heap s (o3.2.2 s.addr s3)]
    exact s2
  rw [hE]
  refine ⟨s, hfin.Inlines, ?_, by simpa using o5, ?_, g2, g1⟩
  · cases hfin
    simp only at o4
    subst o4
    rfl
  · exact snapshot_release w w2 r s _ _ hrd2 hp2 s6 hv s4

/-- C2: for a source whose read succeeds, `SetPlain`, `newAttachment` and
`SetHtml` (with any `Inline` options whose reads succeed) store exactly the
unread bytes of the source, whether the source is a `bytes.Buffer`, copied
directly, or a stream, buffered in a pool buffer first; two sources with the
same unread bytes give the same stored bytes.  The stored slice is a snapshot:
it holds these bytes after the pool buffer was reset and put back, and keeps
them when any buffer of the pool, or the source buffer, is written to again.
The pool is left as it is assumed to be: every cached buffer empty. -/
theorem stored_content_is_snapshot (w : World) (hw : PoolOK w) (r : Reader)
    (hv : r.Valid w.heap) (hok : r.readOK) (m : Message) (name contentType : String)
    (cs : List InlineCall) (hcs : ∀ c ∈ cs, c.source.readOK) :
    (∃ p : Slice,
      m.SetPlain r w = (none, { m with Plain := some p }, (m.SetPlain r w).2.2) ∧
      Snapshot (m.SetPlain r w).2.2 r (some p) (r.unread w.heap)) ∧
    (∃ p : Slice,
      newAttachment name contentType r w =
        (.ok { Name := name, ContentType := contentType, Body := some p },
          (newAttachment name contentType r w).2) ∧
      Snapshot (newAttachment name contentType r w).2 r (some p) (r.unread w.heap)) ∧
    (∃ (p : Slice) (ins : List Attachment),
      m.SetHtml r (cs.map InlineCall.opt) w =
        (none, { m with Html := some { Body := some p, Inlines := ins } },
          (m.SetHtml r (cs.map InlineCall.opt) w).2.2) ∧
      Snapshot (m.SetHtml r (cs.map InlineCall.opt) w).2.2 r (some p) (r.unread w.heap)) ∧
    (PoolOK (m.SetPlain r w).2.2 ∧ PoolOK (newAttachment name contentType r w).2 ∧
      PoolOK (m.SetHtml r (cs.map InlineCall.opt) w).2.2) ∧
    (∀ r2 : Reader, r2.Valid w.heap → r2.readOK → r2.unread w.heap = r.unread w.heap →
      (m.SetPlain r2 w).2.2.heap.read (m.SetPlain r2 w).2.1.Plain =
        (m.SetPlain r w).2.2.heap.read (m.SetPlain r w).2.1.Plain ∧
      storedBody (newAttachment name contentType r2 w) =
        storedBody (newAttachment name contentType r w) ∧
      (m.SetHtml r2 (cs.map InlineCall.opt) w).2.2.heap.read
          (m.SetHtml r2 (cs.map InlineCall.opt) w).2.1.htmlBody =
        (m.SetHtml r (cs.map InlineCall.opt) w).2.2.heap.read
          (m.SetHtml r (cs.map InlineCall.opt) w).2.1.htmlBody) := by
  have plainBytes : ∀ r0 : Reader, r0.Valid w.heap → r0.readOK →
      (m.SetPlain r0 w).2.2.heap.read (m.SetPlain r0 w).2.1.Plain = r0.unread w.heap := by
    intro r0 hv0 hok0
    obtain ⟨p, e, sn, _⟩ := SetPlain_ok m r0 w hw hv0 hok0
    rw [e]
    exact sn.1
  have bodyBytes : ∀ r0 : Reader, r0.Valid w.heap → r0.readOK →
      storedBody (newAttachment name contentType r0 w) = r0.unread w.heap := by
    intro r0 hv0 hok0
    obtain ⟨p, e, sn, _⟩ := newAttachment_ok name contentType r0 w hw hv0 hok0
    unfold storedBody
    rw [e]
    exact sn.1
  have htmlBytes : ∀ r0 : Reader, r0.Valid w.heap → r0.readOK →
      (m.SetHtml r0 (cs.map InlineCall.opt) w).2.2.heap.read
        (m.SetHtml r0 (cs.map InlineCall.opt) w).2.1.htmlBody = r0.unread w.heap := by
    intro r0 hv0 hok0
    obtain ⟨p, ins, e, _, sn, _⟩ := SetHtml_inlines_ok m r0 cs w hw hv0 hok0 hcs
    rw [e]
    exact sn.1
  refine ⟨?_, ?_, ?_, ?_, ?_⟩
  · obtain ⟨p, e, sn, _⟩ := SetPlain_ok m r w hw hv hok
    exact ⟨p, e, sn⟩
  · obtain ⟨p, e, sn, _⟩ := newAttachment_ok name contentType r w hw hv hok
    exact ⟨p, e, sn⟩
  · obtain ⟨p, ins, e, _, sn, _⟩ := SetHtml_inlines_ok m r cs w hw hv hok hcs
    exact ⟨p, ins, e, sn⟩
  · obtain ⟨_, _, _, k1, _⟩ := SetPlain_ok m r w hw hv hok
    obtain ⟨_, _, _, k2, _⟩ := newAttachment_ok name contentType r w hw hv hok
    obtain ⟨_, _, _, _, _, k3, _⟩ := SetHtml_inlines_ok m r cs w hw hv hok hcs
    exact ⟨k1, k2, k3⟩
  · intro r2 hv2 hok2 heq
    rw [plainBytes r2 hv2 hok2, plainBytes r hv hok, bodyBytes r2 hv2 hok2, bodyBytes r hv hok,
      htmlBytes r2 hv2 hok2, htmlBytes r hv hok]
    exact ⟨heq, heq, heq⟩

/-- C2, at concrete sources: a stream delivering two chunks, and a buffer of three
bytes of which one was read already. -/
theorem stored_content_is_snapshot_witness :
    ((initialMessage "a@example.com" "hi").SetPlain (.stream ⟨[[104, 105], [33]], none⟩)
      emptyWorld).2.2.heap.read
      ((initialMessage "a@example.com" "hi").SetPlain (.stream ⟨[[104, 105], [33]], none⟩)
        emptyWorld).2.1.Plain = [104, 105, 33] ∧
    storedBody (newAttachment "a.bin" "application/octet-stream"
      (.buffer ⟨⟨0, 0, 3⟩, 1⟩) sampleWorld) = [2, 3] := by
  have hw0 : PoolOK emptyWorld := fun b hb => by cases hb
  have hw1 : PoolOK sampleWorld := fun b hb => by cases hb
  have hv1 : (Reader.buffer ⟨⟨0, 0, 3⟩, 1⟩).Valid sampleWorld.heap := by
    refine ⟨?_, ?_, ?_⟩ <;> decide
  refine ⟨?_, ?_⟩
  · obtain ⟨p, e, sn⟩ := (stored_content_is_snapshot emptyWorld hw0
      (.stream ⟨[[104, 105], [33]], none⟩) trivial rfl (initialMessage "a@example.com" "hi")
      "" "" [] (fun c hc => by cases hc)).1
    rw [e]
    exact sn.1
  · obtain ⟨p, e, sn⟩ := (stored_content_is_snapshot sampleWorld hw1
      (.buffer ⟨⟨0, 0, 3⟩, 1⟩) hv1 trivial (initialMessage "a@example.com" "hi")
      "a.bin" "application/octet-stream" [] (fun c hc => by cases hc)).2.1
    unfold storedBody
    rw [e]
    exact sn.1

/-! ### Attaching a file -/

theorem Base_strips_directory (dir file : String) (hne : file ≠ "")
    (hns : '/' ∉ file.data) : path.Base (dir ++ "/" ++ file) = file := by
  obtain ⟨fd⟩ := file
  obtain ⟨dd⟩ := dir
  have hfd : fd ≠ [] := by
    intro h
    apply hne
    rw [h]
  simp only at hns
  have hdata : (String.mk dd ++ "/" ++ String.mk fd).data = dd ++ '/' :: fd := by
    simp [String.data_append]
  have hp : (String.mk dd ++ "/" ++ String.mk fd) ≠ "" := by
    intro h
    have := congrArg String.data h
    rw [hdata] at this
    simp at this
  unfold path.Base
  rw [if_neg hp, hdata]
  have hrev : (dd ++ '/' :: fd).reverse = fd.reverse ++ '/' :: dd.reverse := by simp
  rw [hrev]
  obtain ⟨c, rest, hc⟩ : ∃ c rest, fd.reverse = c :: rest := by
    cases h : fd.reverse with
    | nil => simp at h; exact absurd h hfd
    | cons c rest => exact ⟨c, rest, rfl⟩
  have hcmem : c ∈ fd := by
    have : c ∈ fd.reverse := by rw [hc]; exact List.mem_cons_self _ _
    simpa using this
  have hcne : c ≠ '/' := fun h => hns (h ▸ hcmem)
  have hdrop : List.dropWhile (fun c => c == '/') (fd.reverse ++ '/' :: dd.reverse)
      = fd.reverse ++ '/' :: dd.reverse := by
    rw [hc, List.cons_append, List.dropWhile_cons]
    simp [hcne]
  have htake : List.takeWhile (fun c => c != '/') (fd.reverse ++ '/' :: dd.reverse)
      = fd.reverse := by
    rw [List.takeWhile_append_of_pos]
    · simp
    · intro a ha
      have : a ∈ fd := by simpa using ha
      have hane : a ≠ '/' := fun h => hns (h ▸ this)
      simp [hane]
  simp only [hdrop, htake, List.reverse_reverse]
  rw [if_neg hfd]

/-- C4: when the file opens and its read succeeds, `AttachFromFile` appends
exactly one attachment to the end of the attachments: its Name is
`path.Base` of the given name (the name with its directory stripped), its Body
holds the full content of the file, and its ContentType is what the
extension-to-MIME mapping gives for `path.Ext` of the name, or
"application/octet-stream" when the name has no extension or the mapping has
nothing for it.  For "report.pdf" the name is "report.pdf", and the content type
is "application/pdf" when the mapping gives that for ".pdf". -/
theorem AttachFromFile_appends_one (typeByExtension : String → String) (m : Message)
    (fsys : FS) (name : String) (f : File) (w : World) (hw : PoolOK w)
    (hopen : fsys.Open name = .ok f) (hread : f.stream.err = none) :
    (∃ p : Slice,
      m.AttachFromFile typeByExtension fsys name w =
        (none,
          { m with Attachments := m.Attachments ++
              [{ Name := path.Base name,
                 ContentType := contentTypeFromFileName typeByExtension name,
                 Body := some p }] },
          (m.AttachFromFile typeByExtension fsys name w).2.2) ∧
      Snapshot (m.AttachFromFile typeByExtension fsys name w).2.2 (.stream f.stream) (some p)
        f.stream.chunks.flatten) ∧
    contentTypeFromFileName typeByExtension name =
      (if path.Ext name = "" ∨ typeByExtension (path.Ext name) = ""
        then "application/octet-stream" else typeByExtension (path.Ext name)) ∧
    (∀ dir file : String, name = dir ++ "/" ++ file → file ≠ "" → '/' ∉ file.data →
      path.Base name = file) ∧
    (name = "report.pdf" → path.Base name = "report.pdf" ∧
      (typeByExtension ".pdf" = "application/pdf" →
        contentTypeFromFileName typeByExtension name = "application/pdf") ∧
      (typeByExtension ".pdf" = "" →
        contentTypeFromFileName typeByExtension name = "application/octet-stream")) := by
  refine ⟨?_, ?_, ?_, ?_⟩
  · obtain ⟨p, e, sn, _⟩ := newAttachment_ok (path.Base name)
      (contentTypeFromFileName typeByExtension name) (.stream f.stream) w hw trivial hread
    have hE : m.AttachFromFile typeByExtension fsys name w =
        (none,
          { m with Attachments := m.Attachments ++
              [{ Name := path.Base name,
                 ContentType := contentTypeFromFileName typeByExtension name,
                 Body := some p }] },
          (newAttachment (path.Base name) (contentTypeFromFileName typeByExtension name)
            (.stream f.stream) w).2) := by
      unfold Message.AttachFromFile Message.Attach
      simp only [hopen]
      rw [e]
    rw [hE]
    exact ⟨p, rfl, sn⟩
  · unfold contentTypeFromFileName
    by_cases h1 : path.Ext name = ""
    · simp [h1]
    · by_cases h2 : typeByExtension (path.Ext name) = ""
      · simp [h1, h2]
      · simp [h1, h2]
  · intro dir file hname hne hns
    rw [hname]
    exact Base_strips_directory dir file hne hns
  · intro hname
    subst hname
    have hext : path.Ext "report.pdf" = ".pdf" := by decide
    refine ⟨by decide, ?_, ?_⟩
    · intro ht
      unfold contentTypeFromFileName
      simp [hext, ht]
    · intro ht
      unfold contentTypeFromFileName
      simp [hext, ht]

/-! ### Setting the HTML body -/

theorem ingest_err (r : Reader) (w : World) :
    (ingest r w).1 = match r with
      | .buffer _ => none
      | .stream s => s.err := by
  cases r with
  | buffer b => rfl
  | stream s =>
    unfold ingest Buffer.ReadFrom
    simp only
    cases s.err <;> rfl

theorem rangeOpts_none (α : Type) (opts : List (α → World → Option Error × α × World))
    (x : α) (w : World) (h : (rangeOpts opts x w).1 = none) :
    AllSucceed opts x w ∧
    applyAll opts x w = ((rangeOpts opts x w).2.1, (rangeOpts opts x w).2.2) := by
  induction opts generalizing x w with
  | nil => exact ⟨allSucceed_nil x w, rfl⟩
  | cons opt rest ih =>
    rw [rangeOpts] at h ⊢
    rw [allSucceed_cons, applyAll_cons]
    rcases hres : opt x w with ⟨e, x1, w1⟩
    rw [hres] at h
    cases e with
    | some err => simp at h
    | none =>
      simp only at h ⊢
      exact ⟨⟨trivial, (ih x1 w1 h).1⟩, (ih x1 w1 h).2⟩

/-- The outcome of the option loop of `SetHtml` and `SetHtmlFromString`, and of the
assignment to the Html field after it; `fin` is what is deferred. -/
theorem html_opts_outcome (m : Message) (h0 : Html) (wm : World) (opts : List HtmlOpt)
    (fin : World → World) (res : Option Error × Message × World)
    (hres : res = match rangeOpts opts h0 wm with
      | (some err, _, w2) => (some err, m, fin w2)
      | (none, h, w2) => (none, { m with Html := some h }, fin w2)) :
    (∀ (pre : List HtmlOpt) (opt : HtmlOpt) (post : List HtmlOpt) (e : Error),
      opts = pre ++ opt :: post → AllSucceed pre h0 wm →
      (opt (applyAll pre h0 wm).1 (applyAll pre h0 wm).2).1 = some e →
      res.1 = some e ∧ res.2.1 = m) ∧
    (AllSucceed opts h0 wm →
      res.1 = none ∧ res.2.1 = { m with Html := some (applyAll opts h0 wm).1 }) := by
  refine ⟨?_, ?_⟩
  · intro pre opt post e hsplit hpre hopt
    subst hsplit
    rw [hres, rangeOpts_first_error pre opt post h0 wm e hpre hopt]
    exact ⟨rfl, rfl⟩
  · intro hall
    rw [hres, rangeOpts_of_allSucceed opts h0 wm hall]
    exact ⟨rfl, rfl⟩

theorem SetHtmlFromString_eq (m : Message) (msg : String) (opts : List HtmlOpt) (w : World) :
    m.SetHtmlFromString msg opts w =
      match rangeOpts opts { Body := (w.heap.ofString msg).1, Inlines := [] }
        (w.withHeap (w.heap.ofString msg).2) with
      | (some err, _, w2) => (some err, m, w2)
      | (none, h, w2) => (none, { m with Html := some h }, w2) := rfl

theorem inlineCall_fails (c : InlineCall) (h : Html) (w : World) (s : ByteStream) (e : Error)
    (hc : c.source = .stream s) (he : s.err = some e) : (c.opt h w).1 = some e := by
  have hi := ingest_err c.source w
  rw [hc] at hi
  simp only [he] at hi
  unfold InlineCall.opt Inline Html.Inline
  rw [newAttachment_eq, hc, hi]

theorem rangeOpts_inlineCalls_fail (pre : List InlineCall) (c : InlineCall)
    (post : List InlineCall) (h : Html) (w : World) (hw : PoolOK w)
    (hpre : ∀ c0 ∈ pre, c0.source.readOK) (s : ByteStream) (e : Error)
    (hc : c.source = .stream s) (he : s.err = some e) :
    (rangeOpts ((pre ++ c :: post).map InlineCall.opt) h w).1 = some e := by
  obtain ⟨o1, _, _, _, _⟩ := rangeOpts_inlineCalls pre h w hw hpre
  obtain ⟨a1, _⟩ := rangeOpts_none Html (pre.map InlineCall.opt) h w o1
  rw [List.map_append, List.map_cons,
    rangeOpts_first_error (pre.map InlineCall.opt) c.opt (post.map InlineCall.opt) h w e a1
      (inlineCall_fails c _ _ s e hc he)]

theorem rangeOpts_inlineCalls_frame (cs : List InlineCall) (h : Html) (w : World)
    (hw : PoolOK w) :
    PoolOK (rangeOpts (cs.map InlineCall.opt) h w).2.2 ∧
    Frame w (rangeOpts (cs.map InlineCall.opt) h w).2.2 := by
  induction cs generalizing h w with
  | nil => exact ⟨hw, frame_refl w⟩
  | cons c rest ih =>
    obtain ⟨c1, c2, _, _⟩ := inlineCall_frame c h w hw
    simp only [List.map_cons, rangeOpts]
    rcases hres : c.opt h w with ⟨e, h1, w1⟩
    rw [hres] at c1 c2
    simp only at c1 c2
    cases e with
    | some err => exact ⟨c1, c2⟩
    | none =>
      obtain ⟨i1, i2⟩ := ih h1 w1 c1
      exact ⟨i1, frame_trans c2 i2⟩

/-- `SetHtml` with `Inline` options writes to no protected array, whether it fails or not. -/
theorem SetHtml_inlineCalls_frame (m : Message) (r : Reader) (cs : List InlineCall)
    (w : World) (hw : PoolOK w) :
    PoolOK (m.SetHtml r (cs.map InlineCall.opt) w).2.2 ∧
    Frame w (m.SetHtml r (cs.map InlineCall.opt) w).2.2 := by
  obtain ⟨i1, i2, i3, _⟩ := ingest_spec r w hw
  rw [SetHtml_eq]
  cases (ingest r w).1 with
  | some err =>
    obtain ⟨g1, g2, _⟩ := frame_release i2 i1 (ingest r w).2.2.1 i3
    exact ⟨g2, g1⟩
  | none =>
    obtain ⟨o1, o2⟩ := rangeOpts_inlineCalls_frame cs { Body := (ingest r w).2.1, Inlines := [] }
      (ingest r w).2.2.2 i1
    simp only
    rcases hres : rangeOpts (cs.map InlineCall.opt)
      { Body := (ingest r w).2.1, Inlines := [] } (ingest r w).2.2.2 with ⟨e1, h1, w1⟩
    rw [hres] at o1 o2
    simp only at o1 o2
    obtain ⟨g1, g2, _⟩ := frame_release (frame_trans i2 o2) o1 (ingest r w).2.2.1
      (fun b1 hb1 => ⟨(i3 b1 hb1).1, lt_of_lt_of_le (i3 b1 hb1).2.1 o2.1, (i3 b1 hb1).2.2⟩)
    cases e1 with
    | some err => exact ⟨g2, g1⟩
    | none => exact ⟨g2, g1⟩

theorem frame_ofString (w : World) (msg : String) :
    Frame w (w.withHeap (w.heap.ofString msg).2) := by
  refine ⟨by simp [World.withHeap, Heap.ofString, Heap.alloc],
    fun b hb => Or.inl ⟨b, hb, rfl⟩, fun a ha => ?_⟩
  simp [World.withHeap, Heap.ofString, Heap.alloc, Function.update_noteq (Nat.ne_of_lt ha.1)]

/-- `SetHtmlFromString` with `Inline` options writes to no protected array. -/
theorem SetHtmlFromString_inlineCalls_frame (m : Message) (msg : String)
    (cs : List InlineCall) (w : World) (hw : PoolOK w) :
    PoolOK (m.SetHtmlFromString msg (cs.map InlineCall.opt) w).2.2 ∧
    Frame w (m.SetHtmlFromString msg (cs.map InlineCall.opt) w).2.2 := by
  have hw2 : PoolOK (w.withHeap (w.heap.ofString msg).2) :=
    poolOK_of_grow hw (by simp [World.withHeap, Heap.ofString, Heap.alloc]) (fun _ hb => hb)
  obtain ⟨o1, o2⟩ := rangeOpts_inlineCalls_frame cs
    { Body := (w.heap.ofString msg).1, Inlines := [] } (w.withHeap (w.heap.ofString msg).2) hw2
  rw [SetHtmlFromString_eq]
  rcases hres : rangeOpts (cs.map InlineCall.opt)
    { Body := (w.heap.ofString msg).1, Inlines := [] }
    (w.withHeap (w.heap.ofString msg).2) with ⟨e1, h1, w1⟩
  rw [hres] at o1 o2
  simp only at o1 o2
  cases e1 with
  | some err => exact ⟨o1, frame_trans (frame_ofString w msg) o2⟩
  | none => exact ⟨o1, frame_trans (frame_ofString w msg) o2⟩

/-- C10: a call of `SetHtml` whose source read fails, or a call of `SetHtml` or
`SetHtmlFromString` in which an option fails after the options before it
succeeded, returns that error and leaves the message as it was, the Html field
with its earlier body and inlines included.  When the read and all options
succeed, only the Html field changes: it becomes the body obtained by applying
the options in order to a fresh body that has the copied content and no
inlines.  For `Inline` options in particular: the error of the first call
whose read fails is returned and the message is unchanged, and when all reads
succeed the inlines of the new body are those of the calls, in call order;
failing or not, such a call changes the bytes of no slice that lies outside
the arrays of the pooled buffers, so the bodies the message holds keep their
content. -/
theorem SetHtml_error_keeps_message (m : Message) (w : World) (r : Reader) (msg : String) :
    (∀ (s : ByteStream) (e : Error) (opts : List HtmlOpt), r = .stream s → s.err = some e →
      (m.SetHtml r opts w).1 = some e ∧ (m.SetHtml r opts w).2.1 = m) ∧
    (r.readOK → ∃ (p : ByteSlice) (wm : World), ∀ opts : List HtmlOpt,
      (∀ (pre : List HtmlOpt) (opt : HtmlOpt) (post : List HtmlOpt) (e : Error),
        opts = pre ++ opt :: post → AllSucceed pre ⟨p, []⟩ wm →
        (opt (applyAll pre ⟨p, []⟩ wm).1 (applyAll pre ⟨p, []⟩ wm).2).1 = some e →
        (m.SetHtml r opts w).1 = some e ∧ (m.SetHtml r opts w).2.1 = m) ∧
      (AllSucceed opts ⟨p, []⟩ wm →
        (m.SetHtml r opts w).1 = none ∧
        (m.SetHtml r opts w).2.1 = { m with Html := some (applyAll opts ⟨p, []⟩ wm).1 })) ∧
    (∃ (p : ByteSlice) (wm : World), wm.heap.read p = stringBytes msg ∧
      ∀ opts : List HtmlOpt,
      (∀ (pre : List HtmlOpt) (opt : HtmlOpt) (post : List HtmlOpt) (e : Error),
        opts = pre ++ opt :: post → AllSucceed pre ⟨p, []⟩ wm →
        (opt (applyAll pre ⟨p, []⟩ wm).1 (applyAll pre ⟨p, []⟩ wm).2).1 = some e →
        (m.SetHtmlFromString msg opts w).1 = some e ∧
        (m.SetHtmlFromString msg opts w).2.1 = m) ∧
      (AllSucceed opts ⟨p, []⟩ wm →
        (m.SetHtmlFromString msg opts w).1 = none ∧
        (m.SetHtmlFromString msg opts w).2.1 =
          { m with Html := some (applyAll opts ⟨p, []⟩ wm).1 })) ∧
    (PoolOK w → r.readOK →
      ∀ (pre : List InlineCall) (c : InlineCall) (post : List InlineCall) (s : ByteStream)
        (e : Error),
        (∀ c0 ∈ pre, c0.source.readOK) → c.source = .stream s → s.err = some e →
        ((m.SetHtml r ((pre ++ c :: post).map InlineCall.opt) w).1 = some e ∧
          (m.SetHtml r ((pre ++ c :: post).map InlineCall.opt) w).2.1 = m) ∧
        ((m.SetHtmlFromString msg ((pre ++ c :: post).map InlineCall.opt) w).1 = some e ∧
          (m.SetHtmlFromString msg ((pre ++ c :: post).map InlineCall.opt) w).2.1 = m)) ∧
    (PoolOK w → r.readOK → ∀ cs : List InlineCall, (∀ c ∈ cs, c.source.readOK) →
      (∃ (p : ByteSlice) (ins : List Attachment),
        (m.SetHtml r (cs.map InlineCall.opt) w).1 = none ∧
        (m.SetHtml r (cs.map InlineCall.opt) w).2.1 = { m with Html := some ⟨p, ins⟩ } ∧
        ins.map (fun a => (a.Name, a.ContentType)) =
          cs.map (fun c => (c.name, c.contentType))) ∧
      (∃ (p : ByteSlice) (ins : List Attachment),
        (m.SetHtmlFromString msg (cs.map InlineCall.opt) w).1 = none ∧
        (m.SetHtmlFromString msg (cs.map InlineCall.opt) w).2.1 =
          { m with Html := some ⟨p, ins⟩ } ∧
        ins.map (fun a => (a.Name, a.ContentType)) =
          cs.map (fun c => (c.name, c.contentType)))) ∧
    (PoolOK w → ∀ (cs : List InlineCall) (q : Slice), Protected w q.addr →
      (m.SetHtml r (cs.map InlineCall.opt) w).2.2.heap.read (some q) = w.heap.read (some q) ∧
      (m.SetHtmlFromString msg (cs.map InlineCall.opt) w).2.2.heap.read (some q) =
        w.heap.read (some q)) := by
  have hnone : r.readOK → (ingest r w).1 = none := by
    intro hok
    rw [ingest_err]
    cases r with
    | buffer b => rfl
    | stream s => exact hok
  have hEq : r.readOK → ∀ opts : List HtmlOpt, m.SetHtml r opts w =
      match rangeOpts opts { Body := (ingest r w).2.1, Inlines := [] } (ingest r w).2.2.2 with
      | (some err, _, w2) => (some err, m, release (ingest r w).2.2.1 w2)
      | (none, h, w2) => (none, { m with Html := some h }, release (ingest r w).2.2.1 w2) := by
    intro hok opts
    rw [SetHtml_eq]
    simp only [hnone hok]
  have hw2 : PoolOK w → PoolOK (w.withHeap (w.heap.ofString msg).2) := by
    intro hw
    exact poolOK_of_grow hw (by simp [World.withHeap, Heap.ofString, Heap.alloc]) (fun _ hb => hb)
  refine ⟨?_, ?_, ?_, ?_, ?_, ?_⟩
  · intro s e opts hr he
    have hi := ingest_err r w
    rw [hr] at hi
    simp only [he] at hi
    rw [SetHtml_eq, hr, hi]
    exact ⟨rfl, rfl⟩
  · intro hok
    refine ⟨(ingest r w).2.1, (ingest r w).2.2.2, fun opts => ?_⟩
    exact html_opts_outcome m _ _ opts (release (ingest r w).2.2.1) _ (hEq hok opts)
  · refine ⟨(w.heap.ofString msg).1, w.withHeap (w.heap.ofString msg).2, ?_,
      fun opts => ?_⟩
    · simp [World.withHeap, Heap.ofString, Heap.alloc, Heap.read]
    · exact html_opts_outcome m _ _ opts id _ (SetHtmlFromString_eq m msg opts w)
  · intro hw hok pre c post s e hpre hc he
    obtain ⟨i1, _⟩ := ingest_spec r w hw
    have f1 := rangeOpts_inlineCalls_fail pre c post { Body := (ingest r w).2.1, Inlines := [] }
      (ingest r w).2.2.2 i1 hpre s e hc he
    have f2 := rangeOpts_inlineCalls_fail pre c post
      { Body := (w.heap.ofString msg).1, Inlines := [] }
      (w.withHeap (w.heap.ofString msg).2) (hw2 hw) hpre s e hc he
    refine ⟨?_, ?_⟩
    · rw [hEq hok]
      rcases hres : rangeOpts ((pre ++ c :: post).map InlineCall.opt)
        { Body := (ingest r w).2.1, Inlines := [] } (ingest r w).2.2.2 with ⟨e1, h1, w1⟩
      rw [hres] at f1
      simp only at f1
      subst f1
      exact ⟨rfl, rfl⟩
    · rw [SetHtmlFromString_eq]
      rcases hres : rangeOpts ((pre ++ c :: post).map InlineCall.opt)
        { Body := (w.heap.ofString msg).1, Inlines := [] }
        (w.withHeap (w.heap.ofString msg).2) with ⟨e1, h1, w1⟩
      rw [hres] at f2
      simp only at f2
      subst f2
      exact ⟨rfl, rfl⟩
  · intro hw hok cs hcs
    obtain ⟨i1, _⟩ := ingest_spec r w hw
    obtain ⟨a1, _, _, a4, a5⟩ := rangeOpts_inlineCalls cs
      { Body := (ingest r w).2.1, Inlines := [] } (ingest r w).2.2.2 i1 hcs
    obtain ⟨b1, _, _, b4, b5⟩ := rangeOpts_inlineCalls cs
      { Body := (w.heap.ofString msg).1, Inlines := [] }
      (w.withHeap (w.heap.ofString msg).2) (hw2 hw) hcs
    refine ⟨?_, ?_⟩
    · rw [hEq hok]
      rcases hres : rangeOpts (cs.map InlineCall.opt)
        { Body := (ingest r w).2.1, Inlines := [] } (ingest r w).2.2.2 with ⟨e1, h1, w1⟩
      rw [hres] at a1 a4 a5
      simp only at a1 a4 a5
      subst a1
      obtain ⟨hb, hi⟩ := h1
      exact ⟨hb, hi, rfl, rfl, by simpa using a5⟩
    · rw [SetHtmlFromString_eq]
      rcases hres : rangeOpts (cs.map InlineCall.opt)
        { Body := (w.heap.ofString msg).1, Inlines := [] }
        (w.withHeap (w.heap.ofString msg).2) with ⟨e1, h1, w1⟩
      rw [hres] at b1 b4 b5
      simp only at b1 b4 b5
      subst b1
      obtain ⟨hb, hi⟩ := h1
      exact ⟨hb, hi, rfl, rfl, by simpa using b5⟩
  · intro hw cs q hq
    obtain ⟨_, f1⟩ := SetHtml_inlineCalls_frame m r cs w hw
    obtain ⟨_, f2⟩ := SetHtmlFromString_inlineCalls_frame m msg cs w hw
    exact ⟨read_congr _ _ q (f1.2.2 q.addr hq), read_congr _ _ q (f2.2.2 q.addr hq)⟩

/-- C10, at a concrete call: the message has an HTML body with an inline already;
the content is read, the first `Inline` succeeds and the second fails. -/
theorem SetHtml_error_keeps_message_witness :
    (messageWithHtml.SetHtml (.stream ⟨[[60, 112, 62]], none⟩)
      ([⟨"a.png", "image/png", .stream ⟨[[1]], none⟩⟩,
        ⟨"b.png", "image/png", .stream ⟨[[2]], some ⟨"disk error"⟩⟩⟩].map InlineCall.opt)
      emptyWorld).1 = some ⟨"disk error"⟩ ∧
    (messageWithHtml.SetHtml (.stream ⟨[[60, 112, 62]], none⟩)
      ([⟨"a.png", "image/png", .stream ⟨[[1]], none⟩⟩,
        ⟨"b.png", "image/png", .stream ⟨[[2]], some ⟨"disk error"⟩⟩⟩].map InlineCall.opt)
      emptyWorld).2.1 = messageWithHtml :=
  ((SetHtml_error_keeps_message messageWithHtml emptyWorld (.stream ⟨[[60, 112, 62]], none⟩)
      "").2.2.2.1 (fun b hb => by cases hb) rfl
    [⟨"a.png", "image/png", .stream ⟨[[1]], none⟩⟩]
    ⟨"b.png", "image/png", .stream ⟨[[2]], some ⟨"disk error"⟩⟩⟩ [] ⟨[[2]], some ⟨"disk error"⟩⟩
    ⟨"disk error"⟩ (fun c0 hc0 => by
      simp only [List.mem_singleton] at hc0
      subst hc0
      rfl) rfl rfl).1

/-- C4, at a concrete file: docs/report.pdf is attached under the name report.pdf
with the content type of its extension and its whole content. -/
theorem AttachFromFile_appends_one_witness :
    ((initialMessage "a@example.com" "hi").AttachFromFile sampleTypes sampleFS
        "docs/report.pdf" emptyWorld).2.1.Attachments.map
      (Attachment.content ((initialMessage "a@example.com" "hi").AttachFromFile sampleTypes
        sampleFS "docs/report.pdf" emptyWorld).2.2.heap) =
      [("report.pdf", "application/pdf", [37, 80, 68, 70])] := by
  obtain ⟨p, e, sn⟩ := (AttachFromFile_appends_one sampleTypes (initialMessage "a@example.com" "hi")
    sampleFS "docs/report.pdf" ⟨⟨[[37, 80], [68, 70]], none⟩⟩ emptyWorld
    (fun b hb => by cases hb) rfl rfl).1
  have hname : path.Base "docs/report.pdf" = "report.pdf" := by decide
  have hct : contentTypeFromFileName sampleTypes "docs/report.pdf" = "application/pdf" := by
    decide
  have hrd := sn.1
  generalize ((initialMessage "a@example.com" "hi").AttachFromFile sampleTypes sampleFS
    "docs/report.pdf" emptyWorld).2.2 = w2 at e hrd ⊢
  rw [e]
  simp only [initialMessage, List.nil_append, List.map_cons, List.map_nil, Attachment.content,
    hname, hct, hrd]
  rfl

namespace smtp

/-- C5, at a concrete message with a plain body, an HTML body with one inline and
two regular attachments. -/
theorem buildMessage_copies_message_witness :
    sampleMessage.Valid sampleWorld.heap ∧
    (buildMessage sampleMessage sampleWorld.heap).1.Attachments.map
        (JweAttachment.content (buildMessage sampleMessage sampleWorld.heap).2) =
      [("logo.png", "image/png", [1]), ("doc.pdf", "application/pdf", [3]),
        ("empty", "text/plain", [])] ∧
    (buildMessage sampleMessage sampleWorld.heap).1.To = ["b@example.com", "c@example.com"] := by
  have hv : sampleMessage.Valid sampleWorld.heap := by
    refine ⟨?_, ?_, ?_⟩
    · exact ⟨by decide, by decide⟩
    · intro body hb
      cases hb
      refine ⟨⟨by decide, by decide⟩, ?_⟩
      intro a ha
      simp only [List.mem_singleton] at ha
      subst ha
      exact ⟨by decide, by decide⟩
    · intro a ha
      simp only [sampleMessage, List.mem_cons, List.mem_singleton, List.not_mem_nil,
        or_false] at ha
      rcases ha with ha | ha
      · subst ha
        exact ⟨by decide, by decide⟩
      · subst ha
        trivial
  refine ⟨hv, ?_, ?_⟩
  · rw [(buildMessage_copies_message sampleMessage sampleWorld.heap hv).2.2.2.2.2.1]
    rfl
  · rw [(buildMessage_copies_message sampleMessage sampleWorld.heap hv).2.2.1]
    rfl

end smtp

end Email
